import Mathlib

/-!
# Verification of the Eppo flag enum generator

A shallow embedding of `src/generate-eppo-enums.ts` (the normalize →
canonicalize → coerce → emit pipeline) together with models of the
JavaScript builtins it relies on, and theorems settling the spec claims.

JavaScript numbers are modelled as rationals: no claim settled here
depends on binary64 rounding, and every value actually examined by a
theorem is an integer or a small decimal, where the two agree.
-/

set_option maxRecDepth 4000

namespace EppoGen

/-- Model of a JavaScript runtime value as far as the generator inspects
one: `null` and `undefined` are distinguished (the source tests both),
booleans, numbers, strings, arrays and plain objects.  Object fields and
array elements keep insertion order, matching the JS iteration order the
source relies on. -/
inductive JsValue where
  | null
  | undef
  | bool (b : Bool)
  | num (q : ℚ)
  | str (s : String)
  | arr (elems : List JsValue)
  | obj (fields : List (String × JsValue))

mutual
/-- Structural boolean equality on `JsValue` (the nested inductive rules
out derived decidable equality). -/
def jsValueBeq : JsValue → JsValue → Bool
  | .null, .null => true
  | .undef, .undef => true
  | .bool a, .bool b => a == b
  | .num a, .num b => a == b
  | .str a, .str b => a == b
  | .arr a, .arr b => jsValueBeqList a b
  | .obj a, .obj b => jsValueBeqFields a b
  | _, _ => false

def jsValueBeqList : List JsValue → List JsValue → Bool
  | [], [] => true
  | a :: la, b :: lb => jsValueBeq a b && jsValueBeqList la lb
  | _, _ => false

def jsValueBeqFields : List (String × JsValue) → List (String × JsValue) → Bool
  | [], [] => true
  | a :: la, b :: lb => (a.1 == b.1 && jsValueBeq a.2 b.2) && jsValueBeqFields la lb
  | _, _ => false
end

mutual
theorem jsValueBeq_refl : ∀ a : JsValue, jsValueBeq a a = true
  | .null => rfl
  | .undef => rfl
  | .bool a => by simp [jsValueBeq]
  | .num a => by simp [jsValueBeq]
  | .str a => by simp [jsValueBeq]
  | .arr a => jsValueBeqList_refl a
  | .obj a => jsValueBeqFields_refl a

theorem jsValueBeqList_refl : ∀ l : List JsValue, jsValueBeqList l l = true
  | [] => rfl
  | a :: la => by
    simp only [jsValueBeqList, Bool.and_eq_true]
    exact ⟨jsValueBeq_refl a, jsValueBeqList_refl la⟩

theorem jsValueBeqFields_refl : ∀ l : List (String × JsValue), jsValueBeqFields l l = true
  | [] => rfl
  | a :: la => by
    have h1 := jsValueBeq_refl a.2
    have h2 := jsValueBeqFields_refl la
    simp [jsValueBeqFields, h1, h2]
end

mutual
theorem jsValueBeq_eq : ∀ a b : JsValue, jsValueBeq a b = true → a = b
  | .null, .null, _ => rfl
  | .undef, .undef, _ => rfl
  | .bool a, .bool b, h => by simpa [jsValueBeq] using h
  | .num a, .num b, h => by simpa [jsValueBeq] using h
  | .str a, .str b, h => by simpa [jsValueBeq] using h
  | .arr a, .arr b, h => congrArg JsValue.arr (jsValueBeqList_eq a b h)
  | .obj a, .obj b, h => congrArg JsValue.obj (jsValueBeqFields_eq a b h)

theorem jsValueBeqList_eq : ∀ a b : List JsValue, jsValueBeqList a b = true → a = b
  | [], [], _ => rfl
  | a :: la, b :: lb, h => by
    simp only [jsValueBeqList, Bool.and_eq_true] at h
    rw [jsValueBeq_eq a b h.1, jsValueBeqList_eq la lb h.2]

theorem jsValueBeqFields_eq :
    ∀ a b : List (String × JsValue), jsValueBeqFields a b = true → a = b
  | [], [], _ => rfl
  | a :: la, b :: lb, h => by
    simp only [jsValueBeqFields, Bool.and_eq_true, beq_iff_eq] at h
    have h2 := jsValueBeq_eq a.2 b.2 h.1.2
    have h3 := jsValueBeqFields_eq la lb h.2
    calc a :: la = (a.1, a.2) :: la := by rw [Prod.mk.eta]
    _ = (b.1, b.2) :: lb := by rw [h.1.1, h2, h3]
    _ = b :: lb := by rw [Prod.mk.eta]
end

instance : DecidableEq JsValue := fun a b =>
  decidable_of_iff (jsValueBeq a b = true)
    ⟨jsValueBeq_eq a b, fun h => h ▸ jsValueBeq_refl a⟩

/-- Model of JavaScript truthiness (`Boolean(v)`), restricted to the value
model: `null`/`undefined`/`false`/`0`/`""` are falsy, everything else
(including empty arrays and objects) is truthy. -/
def jsBoolean : JsValue → Bool
  | .null => false
  | .undef => false
  | .bool b => b
  | .num q => decide (q ≠ 0)
  | .str s => decide (s ≠ "")
  | .arr _ => true
  | .obj _ => true

/-- Model of ASCII `String.prototype.toLowerCase`.  `Char.toLower` lowers
exactly the ASCII letters; every string this is applied to in the settled
claims is ASCII. -/
def jsToLower (s : String) : String := String.mk (s.data.map Char.toLower)

/-- Decimal digit run: longest prefix of digits, and the rest. -/
def takeDigits : List Char → List Char × List Char
  | [] => ([], [])
  | c :: cs =>
    if c.isDigit then
      let p := takeDigits cs
      (c :: p.1, p.2)
    else ([], c :: cs)

/-- Value of a (most-significant-first) digit list. -/
def digitsToNat (ds : List Char) : Nat :=
  ds.foldl (fun a c => 10 * a + (c.toNat - 48)) 0

/-- Model of the JavaScript whitespace accepted by `parseFloat` and
`JSON.parse` (the forms that occur in practice). -/
def isJsWs (c : Char) : Bool := c = ' ' ∨ c = '\t' ∨ c = '\n' ∨ c = '\r'

/-- The rational denoted by a sign, integer digits `ip`, fraction digits
`fp` and a decimal exponent `e`: `±(ip.fp)·10^e`.  Assembled with integer
arithmetic and `mkRat` only (the `Rat` field operations are irreducible
and would block kernel evaluation). -/
def decimalToRat (neg : Bool) (ip fp : List Char) (e : Int) : ℚ :=
  let base : Int := (digitsToNat ip : Int) * (10 : Int) ^ fp.length + (digitsToNat fp : Int)
  let sbase : Int := if neg then -base else base
  if 0 ≤ e then mkRat (sbase * (10 : Int) ^ e.toNat) ((10 : Nat) ^ fp.length)
  else mkRat sbase ((10 : Nat) ^ (fp.length + (-e).toNat))

/-- Model of `parseFloat`: skip leading whitespace, then read an optional
sign and a maximal decimal-literal prefix (`digits`, optional `.digits`,
optional exponent); `none` models `NaN` (no digit could be read).  An
`Infinity` literal is outside the model; no theorem below feeds one in.
Trailing garbage after the numeric prefix is ignored, as in JS (an
incomplete exponent is itself trailing garbage). -/
def jsParseFloat (s : String) : Option ℚ :=
  let cs := s.data.dropWhile (fun c => isJsWs c)
  let sg : Bool × List Char :=
    match cs with
    | '-' :: r => (true, r)
    | '+' :: r => (false, r)
    | r => (false, r)
  let ip := takeDigits sg.2
  let fp : List Char × List Char :=
    match ip.2 with
    | '.' :: r => takeDigits r
    | r => ([], r)
  if ip.1.isEmpty ∧ fp.1.isEmpty then none
  else
    let expo : Option Int :=
      match fp.2 with
      | 'e' :: r | 'E' :: r =>
        let es : Bool × List Char :=
          match r with
          | '-' :: r2 => (true, r2)
          | '+' :: r2 => (false, r2)
          | r2 => (false, r2)
        let ed := takeDigits es.2
        if ed.1.isEmpty then none
        else some (if es.1 then -(digitsToNat ed.1 : Int) else (digitsToNat ed.1 : Int))
      | _ => none
    some (decimalToRat sg.1 ip.1 fp.1 (expo.getD 0))

/-- Single-character JSON string-literal escapes (`\" \\ \/ \b \f \n \r
\t`); the `\uXXXX` form is handled separately in `jsonStringBody`. -/
def jsonEscOf : Char → Option Char
  | '"' => some '"'
  | '\\' => some '\\'
  | '/' => some '/'
  | 'b' => some (Char.ofNat 8)
  | 'f' => some (Char.ofNat 12)
  | 'n' => some '\n'
  | 'r' => some '\r'
  | 't' => some '\t'
  | _ => none

/-- Value of a hexadecimal digit, as read by a `\uXXXX` escape. -/
def jsonHexVal (c : Char) : Option Nat :=
  if '0' ≤ c ∧ c ≤ '9' then some (c.toNat - 48)
  else if 'a' ≤ c ∧ c ≤ 'f' then some (c.toNat - 87)
  else if 'A' ≤ c ∧ c ≤ 'F' then some (c.toNat - 55)
  else none

/-- Code unit denoted by the four hex digits of a `\uXXXX` escape. -/
def jsonU4Val (a b c d : Char) : Option Nat :=
  match jsonHexVal a, jsonHexVal b, jsonHexVal c, jsonHexVal d with
  | some va, some vb, some vc, some vd =>
    some (((va * 16 + vb) * 16 + vc) * 16 + vd)
  | _, _, _, _ => none

/-- Body of a JSON string literal after the opening quote: returns the
decoded content and the input after the closing quote.  Raw control
characters are invalid, as in JSON.  `\uXXXX` escapes decode to the
denoted scalar value, and a high-surrogate escape followed by a
low-surrogate escape decodes to the combined supplementary character.
A lone surrogate escape denotes a JS string with an unpaired UTF-16
code unit; such strings have no counterpart in this embedding's string
type (sequences of Unicode scalar values), so those inputs are outside
the model and rejected. -/
def jsonStringBody : List Char → Option (List Char × List Char)
  | [] => none
  | '"' :: r => some ([], r)
  | '\\' :: 'u' :: a :: b :: c :: d :: rest =>
    match jsonU4Val a b c d with
    | none => none
    | some n =>
      if 0xD800 ≤ n ∧ n ≤ 0xDBFF then
        match rest with
        | '\\' :: 'u' :: a2 :: b2 :: c2 :: d2 :: rest2 =>
          match jsonU4Val a2 b2 c2 d2 with
          | none => none
          | some m =>
            if 0xDC00 ≤ m ∧ m ≤ 0xDFFF then
              (jsonStringBody rest2).map fun p =>
                (Char.ofNat (0x10000 + (n - 0xD800) * 0x400 + (m - 0xDC00)) :: p.1, p.2)
            else none
        | _ => none
      else if 0xDC00 ≤ n ∧ n ≤ 0xDFFF then none
      else (jsonStringBody rest).map fun p => (Char.ofNat n :: p.1, p.2)
  | '\\' :: e :: r =>
    match jsonEscOf e with
    | some c => (jsonStringBody r).map fun p => (c :: p.1, p.2)
    | none => none
  | c :: r =>
    if c.toNat < 32 then none
    else (jsonStringBody r).map fun p => (c :: p.1, p.2)

/-- Integer part of a JSON number: `0`, or a nonzero digit followed by
digits (JSON forbids redundant leading zeros; a stray digit after a
leading `0` is left unconsumed and rejected by the full-consumption
check in `jsonParse`). -/
def jsonIntDigits : List Char → Option (List Char × List Char)
  | '0' :: r => some (['0'], r)
  | c :: r =>
    if c.isDigit then
      let p := takeDigits r
      some (c :: p.1, p.2)
    else none
  | [] => none

/-- A JSON number literal prefix: `-? int frac? exp?`. -/
def jsonNumber (cs : List Char) : Option (ℚ × List Char) :=
  let sgn : Bool × List Char :=
    match cs with
    | '-' :: r => (true, r)
    | r => (false, r)
  match jsonIntDigits sgn.2 with
  | none => none
  | some (ids, r1) =>
    let fr : Option (List Char × List Char) :=
      match r1 with
      | '.' :: r2 =>
        let p := takeDigits r2
        if p.1.isEmpty then none else some p
      | r2 => some ([], r2)
    match fr with
    | none => none
    | some (fds, r3) =>
      let ex : Option (Int × List Char) :=
        match r3 with
        | 'e' :: r4 | 'E' :: r4 =>
          let es : Int × List Char :=
            match r4 with
            | '-' :: r5 => (-1, r5)
            | '+' :: r5 => (1, r5)
            | r5 => (1, r5)
          let ed := takeDigits es.2
          if ed.1.isEmpty then none else some (es.1 * (digitsToNat ed.1 : Int), ed.2)
        | r4 => some (0, r4)
      match ex with
      | none => none
      | some (e, r6) => some (decimalToRat sgn.1 ids fds e, r6)

/-- Skip JSON insignificant whitespace (space, tab, newline, carriage
return — exactly the `isJsWs` set). -/
def jsonSkipWs (cs : List Char) : List Char := cs.dropWhile (fun c => isJsWs c)

/-- What a recursive-descent step of the JSON grammar returns: a value,
an array's element list, or an object's member list. -/
inductive JsonResult where
  | val (v : JsValue)
  | elems (xs : List JsValue)
  | fields (fs : List (String × JsValue))

/-- The three productions of the JSON grammar the recursive descent in
`jsonCore` alternates between. -/
inductive JsonMode where
  | value
  | elems
  | fields

/-- JS object-literal assignment for a parsed member: a repeated key
keeps its first position but takes the later value, as in
`JSON.parse` of an object with duplicate keys. -/
def objInsert : List (String × JsValue) → String → JsValue → List (String × JsValue)
  | [], k, v => [(k, v)]
  | f :: fs, k, v => if f.1 = k then (k, v) :: fs else f :: objInsert fs k v

/-- Fuel-indexed recursive-descent parser for the full JSON grammar:
values (`null`, booleans, numbers, strings, arrays, objects), element
lists and member lists, with insignificant whitespace between tokens.
Any two nested calls consume at least one input character, so fuel
`2·length + 2` (as supplied by `jsonParse`) never runs out on the
input it is given. -/
def jsonCore : Nat → JsonMode → List Char → Option (JsonResult × List Char)
  | 0, _, _ => none
  | fuel + 1, .value, cs =>
    match cs with
    | 'n' :: 'u' :: 'l' :: 'l' :: r => some (.val .null, r)
    | 't' :: 'r' :: 'u' :: 'e' :: r => some (.val (.bool true), r)
    | 'f' :: 'a' :: 'l' :: 's' :: 'e' :: r => some (.val (.bool false), r)
    | '"' :: r =>
      match jsonStringBody r with
      | none => none
      | some (b, r2) => some (.val (.str (String.mk b)), r2)
    | '[' :: r =>
      match jsonSkipWs r with
      | ']' :: r2 => some (.val (.arr []), r2)
      | r1 =>
        match jsonCore fuel .elems r1 with
        | some (.elems xs, r2) =>
          match jsonSkipWs r2 with
          | ']' :: r3 => some (.val (.arr xs), r3)
          | _ => none
        | _ => none
    | '\x7b' :: r =>
      match jsonSkipWs r with
      | '\x7d' :: r2 => some (.val (.obj []), r2)
      | r1 =>
        match jsonCore fuel .fields r1 with
        | some (.fields fs, r2) =>
          match jsonSkipWs r2 with
          | '\x7d' :: r3 =>
            some (.val (.obj (fs.foldl (fun acc kv => objInsert acc kv.1 kv.2) [])), r3)
          | _ => none
        | _ => none
    | _ => (jsonNumber cs).map fun p => (.val (.num p.1), p.2)
  | fuel + 1, .elems, cs =>
    match jsonCore fuel .value (jsonSkipWs cs) with
    | some (.val v, r) =>
      (match jsonSkipWs r with
        | ',' :: r2 =>
          match jsonCore fuel .elems r2 with
          | some (.elems xs, r3) => some (.elems (v :: xs), r3)
          | _ => none
        | r2 => some (.elems [v], r2))
    | _ => none
  | fuel + 1, .fields, cs =>
    match jsonSkipWs cs with
    | '"' :: r =>
      match jsonStringBody r with
      | none => none
      | some (k, r2) =>
        match jsonSkipWs r2 with
        | ':' :: r3 =>
          match jsonCore fuel .value (jsonSkipWs r3) with
          | some (.val v, r4) =>
            (match jsonSkipWs r4 with
              | ',' :: r5 =>
                match jsonCore fuel .fields r5 with
                | some (.fields fs, r6) => some (.fields ((String.mk k, v) :: fs), r6)
                | _ => none
              | r5 => some (.fields [(String.mk k, v)], r5))
          | _ => none
        | _ => none
    | _ => none

/-- Model of `JSON.parse`: parse one JSON value with surrounding
whitespace allowed and the whole input consumed; a parse error is
`none`, modelling a thrown exception.  The fuel bound is justified at
`jsonCore`. -/
def jsonParse (s : String) : Option JsValue :=
  match jsonCore (2 * s.length + 2) .value (jsonSkipWs s.data) with
  | some (.val v, rest) => if jsonSkipWs rest = [] then some v else none
  | _ => none

/-- Decimal rendering of an integer, as JS prints one. -/
def intToString (n : Int) : String :=
  if n < 0 then "-" ++ Nat.repr n.natAbs else Nat.repr n.natAbs

/-- Model of `Number.prototype.toString` restricted to the values the
settled claims print: integers render exactly as in JS; a non-integral
rational (which JS would print in decimal or scientific notation) is
rendered as `num/den` — no theorem below inspects that case. -/
def numToString (q : ℚ) : String :=
  if q.den = 1 then intToString q.num
  else intToString q.num ++ "/" ++ Nat.repr q.den

/-- JSON escaping of one character for `JSON.stringify` output. -/
def jsonStringifyEsc (c : Char) : List Char :=
  if c = '"' then ['\\', '"']
  else if c = '\\' then ['\\', '\\']
  else if c = '\n' then ['\\', 'n']
  else if c = '\r' then ['\\', 'r']
  else if c = '\t' then ['\\', 't']
  else if c.toNat = 8 then ['\\', 'b']
  else if c.toNat = 12 then ['\\', 'f']
  else [c]

mutual
/-- Model of `JSON.stringify(v, null, 0)` (compact rendering).  Gaps kept
small and documented: `undefined` inside an array renders `null` as in JS;
an object field holding `undefined` (which JS omits) is rendered as
`null` — no value examined by a theorem contains one. -/
def jsonStringify : JsValue → String
  | .null => "null"
  | .undef => "null"
  | .bool b => if b then "true" else "false"
  | .num q => numToString q
  | .str s => "\"" ++ String.mk (s.data.flatMap jsonStringifyEsc) ++ "\""
  | .arr xs => "[" ++ String.intercalate "," (jsonStringifyList xs) ++ "]"
  | .obj fs => "\x7b" ++ String.intercalate "," (jsonStringifyFields fs) ++ "\x7d"

def jsonStringifyList : List JsValue → List String
  | [] => []
  | x :: xs => jsonStringify x :: jsonStringifyList xs

def jsonStringifyFields : List (String × JsValue) → List String
  | [] => []
  | f :: fs =>
    ("\"" ++ String.mk (f.1.data.flatMap jsonStringifyEsc) ++ "\":" ++ jsonStringify f.2)
      :: jsonStringifyFields fs
end

mutual
/-- Model of the `String(v)` conversion: arrays join their elements with
commas (`null`/`undefined` elements become empty), objects print as
`[object Object]`. -/
def jsStringOf : JsValue → String
  | .null => "null"
  | .undef => "undefined"
  | .bool b => if b then "true" else "false"
  | .num q => numToString q
  | .str s => s
  | .arr xs => String.intercalate "," (jsStringOfList xs)
  | .obj _ => "[object Object]"

def jsStringOfList : List JsValue → List String
  | [] => []
  | .null :: xs => "" :: jsStringOfList xs
  | .undef :: xs => "" :: jsStringOfList xs
  | x :: xs => jsStringOf x :: jsStringOfList xs
end

/-! ## `toEnumKey` (src/generate-eppo-enums.ts lines 82–88) -/

/-- First regex replace of `toEnumKey`: every character outside
`[a-zA-Z0-9_]` becomes `_` (`Char.isAlphanum` is exactly the ASCII
letters and digits, matching the regex class). -/
def replaceNonWord (cs : List Char) : List Char :=
  cs.map fun c => if c.isAlphanum ∨ c = '_' then c else '_'

/-- Second regex replace of `toEnumKey` (`/_+/g → "_"`): collapse each run
of underscores to a single one. -/
def collapseUnderscores : List Char → List Char
  | [] => []
  | [c] => [c]
  | c :: d :: rest =>
    if c = '_' ∧ d = '_' then collapseUnderscores (d :: rest)
    else c :: collapseUnderscores (d :: rest)

/-- Third regex replace of `toEnumKey` (`/^_|_$/g → ""`): the two
alternatives each match at most once, so exactly one leading and one
trailing underscore are removed. -/
def stripEdgeUnderscore (cs : List Char) : List Char :=
  let cs1 := match cs with
    | [] => []
    | c :: r => if c = '_' then r else c :: r
  if cs1.getLast? = some '_' then cs1.dropLast else cs1

/-- Translation of `toEnumKey` (lines 82–88): replace non-word characters
with `_`, collapse runs of `_`, strip one leading/trailing `_`, and
upper-case (ASCII: every non-ASCII character was already replaced in the
first step). -/
def toEnumKey (flagName : String) : String :=
  String.mk ((stripEdgeUnderscore (collapseUnderscores (replaceNonWord flagName.data))).map
    Char.toUpper)

/-! ## `convertVariationValue` (lines 93–131) -/

/-- Translation of `convertVariationValue` (lines 93–131).  `null` and
`undefined` return `null`; otherwise the declared type's case of the
switch is applied.  The JSON case's `try/catch` around `JSON.parse` is
the `Option.getD`; the function is total by construction, matching the
source's never-throws design. -/
def convertVariationValue (value : JsValue) (variationType : String) : JsValue :=
  match value with
  | .null => .null
  | .undef => .null
  | v =>
    if variationType = "BOOLEAN" then
      match v with
      | .bool b => .bool b
      | .str s => .bool (jsToLower s == "true")
      | w => .bool (jsBoolean w)
    else if variationType = "NUMBER" ∨ variationType = "NUMERIC" then
      match v with
      | .num q => .num q
      | .str s =>
        match jsParseFloat s with
        | some q => .num q
        | none => .str s
      | w => w
    else if variationType = "JSON" then
      match v with
      | .arr xs => .arr xs
      | .obj fs => .obj fs
      | .str s => (jsonParse s).getD (.str s)
      | w => w
    else
      .str (jsStringOf v)

/-! ## `formatValueForTypeScript` (lines 136–164) -/

/-- One global single-character regex replace, as `String.replace(/c/g, r)`
performs it. -/
def replaceChar (pat : Char) (rep : List Char) (cs : List Char) : List Char :=
  cs.flatMap fun c => if c = pat then rep else [c]

/-- The escape chain of lines 156–161: backslashes first, then quotes,
newlines, carriage returns, tabs — five sequential global replaces. -/
def escapeStringTS (s : String) : String :=
  String.mk (replaceChar '\t' ['\\', 't']
    (replaceChar '\r' ['\\', 'r']
      (replaceChar '\n' ['\\', 'n']
        (replaceChar '"' ['\\', '"']
          (replaceChar '\\' ['\\', '\\'] s.data)))))

/-- Translation of `formatValueForTypeScript` (lines 136–164):
`null`/`undefined` render the null token, booleans and numbers their
`toString`, objects and arrays a compact `JSON.stringify`, and strings a
double-quoted escaped literal. -/
def formatValueForTypeScript : JsValue → String
  | .null => "null"
  | .undef => "null"
  | .bool b => if b then "true" else "false"
  | .num q => numToString q
  | .arr xs => jsonStringify (.arr xs)
  | .obj fs => jsonStringify (.obj fs)
  | .str s => "\"" ++ escapeStringTS s ++ "\""

/-! ## Data shapes (lines 29–69) and normalization (lines 220–242) -/

/-- An API-shape variation record (interface `EppoVariation`):
`variant_key` is `Option`al since the extraction step at line 268 guards
against an absent one. -/
structure EppoVariation where
  id : Nat
  name : String
  variant_key : Option String
  value : JsValue
deriving DecidableEq

/-- An API-shape flag record (interface `EppoFlag`): `variation_type` and
`variations` are `Option`al, matching the `||`/truthiness guards at lines
259, 281 and 287. -/
structure EppoFlag where
  key : String
  variation_type : Option String
  variations : Option (List EppoVariation)
deriving DecidableEq

/-- A file-shape variation (interface `ConfigVariation`). -/
structure ConfigVariation where
  key : String
  value : JsValue
deriving DecidableEq

/-- A file-shape flag (interface `ConfigFlag`): `variations` is an
insertion-ordered mapping, modelled as an association list since
`Object.values` iterates string keys in insertion order. -/
structure ConfigFlag where
  variationType : Option String
  variations : List (String × ConfigVariation)
deriving DecidableEq

/-- The two raw input shapes accepted by `generateEnumsFromConfig`: an
API array, or a file object whose `flags` mapping may be absent
(`.file none`, falsy, including a missing or `null` field — an empty
mapping is still truthy in JS and is `.file (some [])`). -/
inductive GenConfig where
  | api (flags : List EppoFlag)
  | file (flags : Option (List (String × ConfigFlag)))
deriving DecidableEq

/-- A processed variation (`{ key, value }` at lines 262–282): the key is
`Option`al because the pre-filter records carry the raw `variant_key`. -/
structure TypedVariation where
  key : Option String
  value : JsValue
deriving DecidableEq

/-- The processed flag record (interface `ProcessedFlag`, lines 61–69). -/
structure ProcessedFlag where
  key : String
  enumKey : String
  type : String
  variations : List TypedVariation
deriving DecidableEq

/-- JavaScript `a || b` for an optional string `a`: absent and empty
strings are falsy. -/
def orTruthy : Option String → String → String
  | none, d => d
  | some "", d => d
  | some s, _ => s

/-- `Array.prototype.map((v, index) => …)`: a map that also passes the
element index. -/
def mapWithIndex (f : Nat → ConfigVariation → EppoVariation) :
    Nat → List ConfigVariation → List EppoVariation
  | _, [] => []
  | i, x :: xs => f i x :: mapWithIndex f (i + 1) xs

/-- Shape dispatch of lines 220–238: an array passes through; a file
config's `flags` mapping is converted to an array of API-shape flags
(line 226–235), each variation becoming
`{id: index, name: v.key, variant_key: v.key, value: v.value}`; a config
with no truthy `flags` throws `No flags found in config`. -/
def normalizeConfig : GenConfig → Except String (List EppoFlag)
  | .api flags => .ok flags
  | .file none => .error "No flags found in config"
  | .file (some flagsMap) => .ok (flagsMap.map fun p =>
      { key := p.1
        variation_type := some (orTruthy p.2.variationType "UNKNOWN")
        variations := some (mapWithIndex
          (fun i v => { id := i, name := v.key, variant_key := some v.key, value := v.value })
          0 (p.2.variations.map Prod.snd)) })

/-- Lines 220–242: shape dispatch followed by the emptiness check at
line 240. -/
def flagsDataOf (config : GenConfig) : Except String (List EppoFlag) :=
  match normalizeConfig config with
  | .error e => .error e
  | .ok flagsData =>
    if flagsData.length = 0 then .error "No flags found in config" else .ok flagsData

/-! ## Flag processing (lines 244–290) -/

/-- The raw `variant_key` as the JS value stored at lines 264–267. -/
def jsOfKey : Option String → JsValue
  | none => .undef
  | some k => .str k

/-- Truthiness of the extracted `key` field, as tested by
`.filter(v => v.key)` at line 268: absent and empty keys are falsy. -/
def truthyKey : Option String → Bool
  | none => false
  | some s => decide (s ≠ "")

/-- Lines 262–268 (the array branch, which is the one every flag reaching
this point takes, since file-shape variations were already converted to
arrays at lines 229–234): each variation maps to
`{ key: v.variant_key, value: v.variant_key }` — the raw `value` field is
not consulted — and entries with a falsy key are dropped. -/
def extractVariations (variations : List EppoVariation) : List TypedVariation :=
  (variations.map fun v => { key := v.variant_key, value := jsOfKey v.variant_key }).filter
    fun v => truthyKey v.key

/-- Candidate enum keys in the order the collision loop at lines 247–254
tries them: the bare canonical name, then `base_1`, `base_2`, …, each
recomputed from the base. -/
def enumKeyCandidate (base : String) : Nat → String
  | 0 => base
  | k + 1 => base ++ "_" ++ Nat.repr (k + 1)

/-- The `while (usedEnumKeys.has(enumKey))` loop (lines 251–254), run on
fuel; `freshEnumKey` supplies fuel `used.length + 1`, which always
suffices (`freshEnumKey_spec` below). -/
def freshEnumKeyGo (used : List String) (base : String) : Nat → Nat → String
  | counter, 0 => enumKeyCandidate base counter
  | counter, fuel + 1 =>
    if enumKeyCandidate base counter ∈ used then freshEnumKeyGo used base (counter + 1) fuel
    else enumKeyCandidate base counter

/-- The collision-free enum key chosen for a flag given the accumulated
`usedEnumKeys` set (lines 246–255). -/
def freshEnumKey (used : List String) (base : String) : String :=
  freshEnumKeyGo used base 0 (used.length + 1)

/-- Lines 246–289 for a single flag: choose the enum key, extract the
variations (empty when the `variations` field is falsy, line 259), coerce
each value with the declared type defaulting to `STRING` (line 281), and
record the declared type defaulting to `UNKNOWN` (line 287). -/
def processFlag (usedEnumKeys : List String) (flagData : EppoFlag) : ProcessedFlag :=
  let enumKey := freshEnumKey usedEnumKeys (toEnumKey flagData.key)
  let variations := match flagData.variations with
    | none => []
    | some vs => extractVariations vs
  let typedVariations := variations.map fun v =>
    { key := v.key
      value := convertVariationValue v.value (orTruthy flagData.variation_type "STRING")
      : TypedVariation }
  { key := flagData.key, enumKey := enumKey
    type := orTruthy flagData.variation_type "UNKNOWN"
    variations := typedVariations }

/-- The `flagsData.map` of line 246 with the shared mutable
`usedEnumKeys` set threaded as an accumulator. -/
def processFlags : List String → List EppoFlag → List ProcessedFlag
  | _, [] => []
  | used, f :: fs =>
    let p := processFlag used f
    p :: processFlags (used ++ [p.enumKey]) fs

/-- The whole front half of `generateEnumsFromConfig`: normalization,
emptiness check, and flag processing. -/
def processedFlagsOf (config : GenConfig) : Except String (List ProcessedFlag) :=
  match flagsDataOf config with
  | .error e => .error e
  | .ok flagsData => .ok (processFlags [] flagsData)

/-! ## Code emission (lines 293–335) -/

/-- Lines 296–313: render one variation value.  For a `JSON` flag, values
of object type (including `null`, whose JS `typeof` is `'object'`) are
`JSON.stringify`ed, strings are re-parsed and re-stringified when they
parse as JSON; everything else goes through `formatValueForTypeScript`. -/
def renderVariationValue (flagType : String) (v : JsValue) : String :=
  if flagType = "JSON" then
    match v with
    | .null => jsonStringify .null
    | .arr xs => jsonStringify (.arr xs)
    | .obj fs => jsonStringify (.obj fs)
    | .str s =>
      match jsonParse s with
      | some parsed => jsonStringify parsed
      | none => formatValueForTypeScript (.str s)
    | w => formatValueForTypeScript w
  else formatValueForTypeScript v

/-- `Array.prototype.join(sep)` for the already-rendered pieces (writing
it structurally keeps it kernel-reducible; for non-empty string lists it
agrees with `String.intercalate`). -/
def joinSep (sep : String) : List String → String
  | [] => ""
  | [x] => x
  | x :: xs => x ++ sep ++ joinSep sep xs

/-- Lines 294–315: the rendered variations array. -/
def variationsArrayText (flag : ProcessedFlag) : String :=
  if flag.variations.length > 0 then
    "[" ++ joinSep ", "
      (flag.variations.map fun v => renderVariationValue flag.type v.value) ++ "]"
  else "[]"

/-- Line 317: one table entry. -/
def enumEntryText (flag : ProcessedFlag) : String :=
  "  " ++ flag.enumKey ++ ": \x7b key: \"" ++ flag.key ++ "\" as const, type: \"" ++ flag.type
    ++ "\" as const, variations: " ++ variationsArrayText flag ++ " as const \x7d"

/-- Lines 320–335: the full emitted module text.  `new Date().toISOString()`
is passed in as the `timestamp` parameter — the only non-deterministic
field. -/
def moduleText (flags : List ProcessedFlag) (sourceName timestamp : String) : String :=
  "/**\n * Generated Eppo flag enums\n * Generated on: " ++ timestamp
    ++ "\n * Source: " ++ sourceName
    ++ "\n */\n\nexport const EppoFlags = \x7b\n"
    ++ joinSep ",\n" (flags.map enumEntryText)
    ++ "\n\x7d as const;\n\n// Type for all flag keys\nexport type EppoFlagKey = keyof typeof EppoFlags;\n\n// Type for all flag values  \nexport type EppoFlagValue = typeof EppoFlags[EppoFlagKey];\n"

/-- Translation of `generateEnumsFromConfig` (lines 217–354): on success
the returned text is exactly what `fs.writeFileSync` writes at line 338;
a thrown config-shape error is `.error` (the `catch` at line 350 logs it
and exits with code 1 before any write happens). -/
def generateEnumsFromConfig (config : GenConfig) (sourceName timestamp : String) :
    Except String String :=
  match processedFlagsOf config with
  | .error e => .error e
  | .ok flags => .ok (moduleText flags sourceName timestamp)

/-! ## Decimal rendering is injective

The collision loop's candidates `base_1`, `base_2`, … are pairwise
distinct because `Nat.repr` is injective; this is proved by exhibiting
the decimal decoder as a left inverse. -/

/-- Value of a most-significant-first decimal digit string. -/
def decDigitsVal (cs : List Char) : Nat :=
  cs.foldl (fun a c => 10 * a + (c.toNat - 48)) 0

theorem decDigitsVal_concat (xs : List Char) (c : Char) :
    decDigitsVal (xs ++ [c]) = 10 * decDigitsVal xs + (c.toNat - 48) := by
  simp [decDigitsVal, List.foldl_append]

theorem toDigitsCore_acc (fuel : Nat) : ∀ (n : Nat) (ds : List Char),
    Nat.toDigitsCore 10 fuel n ds = Nat.toDigitsCore 10 fuel n [] ++ ds := by
  induction fuel with
  | zero => intro n ds; simp [Nat.toDigitsCore]
  | succ fuel ih =>
    intro n ds
    by_cases h : n / 10 = 0
    · simp [Nat.toDigitsCore, h]
    · simp only [Nat.toDigitsCore, h, if_false]
      rw [ih (n / 10) (Nat.digitChar (n % 10) :: ds), ih (n / 10) [Nat.digitChar (n % 10)]]
      simp

theorem toDigitsCore_fuel (fuel : Nat) : ∀ (g n : Nat) (ds : List Char), n < fuel → n < g →
    Nat.toDigitsCore 10 fuel n ds = Nat.toDigitsCore 10 g n ds := by
  induction fuel with
  | zero => intro g n ds h; omega
  | succ fuel ih =>
    intro g n ds hf hg
    obtain ⟨g', rfl⟩ : ∃ g', g = g' + 1 := ⟨g - 1, by omega⟩
    by_cases h : n / 10 = 0
    · simp [Nat.toDigitsCore, h]
    · simp only [Nat.toDigitsCore, h, if_false]
      have hlt : n / 10 < n := Nat.div_lt_self (by omega) (by omega)
      exact ih g' (n / 10) _ (by omega) (by omega)

theorem decDigitsVal_toDigits : ∀ n : Nat, decDigitsVal (Nat.toDigits 10 n) = n := by
  intro n
  induction n using Nat.strong_induction_on with
  | _ n ih =>
    by_cases h : n < 10
    · have h0 : n / 10 = 0 := Nat.div_eq_of_lt h
      have hm : n % 10 = n := Nat.mod_eq_of_lt h
      simp only [Nat.toDigits, Nat.toDigitsCore, h0, if_true, hm]
      have : (Nat.digitChar n).toNat - 48 = n := by interval_cases n <;> rfl
      simp [decDigitsVal, this]
    · have h0 : n / 10 ≠ 0 := by
        intro hc; exact h (by omega)
      have hlt : n / 10 < n := Nat.div_lt_self (by omega) (by omega)
      have step : Nat.toDigits 10 n =
          Nat.toDigits 10 (n / 10) ++ [Nat.digitChar (n % 10)] := by
        show Nat.toDigitsCore 10 (n + 1) n [] = _
        simp only [Nat.toDigitsCore, h0, if_false]
        rw [toDigitsCore_acc]
        congr 1
        exact toDigitsCore_fuel n (n / 10 + 1) (n / 10) [] (by omega) (by omega)
      rw [step, decDigitsVal_concat, ih (n / 10) hlt]
      have hd : (Nat.digitChar (n % 10)).toNat - 48 = n % 10 := by
        have : n % 10 < 10 := Nat.mod_lt _ (by omega)
        interval_cases hm : n % 10 <;> rfl
      rw [hd]
      omega

theorem natRepr_inj {m n : Nat} (h : Nat.repr m = Nat.repr n) : m = n := by
  have hd : Nat.toDigits 10 m = Nat.toDigits 10 n := by
    have := congrArg String.data h
    simpa [Nat.repr, List.asString] using this
  have := congrArg decDigitsVal hd
  rwa [decDigitsVal_toDigits, decDigitsVal_toDigits] at this

theorem natRepr_ne_empty (n : Nat) : Nat.repr n ≠ "" := by
  intro h
  have hd : Nat.toDigits 10 n = [] := by
    have := congrArg String.data h
    simpa [Nat.repr, List.asString] using this
  by_cases hz : n = 0
  · subst hz; exact absurd hd (by decide)
  · have := decDigitsVal_toDigits n
    rw [hd] at this
    exact hz (by simpa [decDigitsVal] using this.symm)

/-! ## The collision loop finds a fresh name -/

theorem enumKeyCandidate_inj (base : String) : Function.Injective (enumKeyCandidate base) := by
  have hlen : ∀ k : Nat, (enumKeyCandidate base (k + 1)).length =
      base.length + 1 + (Nat.repr (k + 1)).length := by
    intro k
    simp [enumKeyCandidate, String.length_append, show "_".length = 1 from rfl]
  have hrepr_pos : ∀ k : Nat, 0 < (Nat.repr (k + 1)).length := by
    intro k
    rcases Nat.eq_zero_or_pos (Nat.repr (k + 1)).length with h | h
    · exact absurd (String.ext (List.length_eq_zero.mp h)) (natRepr_ne_empty (k + 1))
    · exact h
  intro i j hij
  match i, j with
  | 0, 0 => rfl
  | 0, j + 1 =>
    exfalso
    have := congrArg String.length hij
    rw [show enumKeyCandidate base 0 = base from rfl, hlen j] at this
    have := hrepr_pos j
    omega
  | i + 1, 0 =>
    exfalso
    have := congrArg String.length hij
    rw [show enumKeyCandidate base 0 = base from rfl, hlen i] at this
    have := hrepr_pos i
    omega
  | i + 1, j + 1 =>
    have hdata := congrArg String.data hij
    simp only [enumKeyCandidate, String.data_append] at hdata
    rw [List.append_assoc, List.append_assoc] at hdata
    have h1 := List.append_cancel_left (List.append_cancel_left hdata)
    have : Nat.repr (i + 1) = Nat.repr (j + 1) := String.ext h1
    rw [natRepr_inj this]

theorem exists_fresh_candidate (used : List String) (base : String) :
    ∃ k, k ≤ used.length ∧ enumKeyCandidate base k ∉ used := by
  by_contra hcon
  push_neg at hcon
  set l := (List.range (used.length + 1)).map (enumKeyCandidate base) with hl
  have hnd : l.Nodup := (List.nodup_range _).map (enumKeyCandidate_inj base)
  have hsub : l.toFinset ⊆ used.toFinset := by
    intro x hx
    rw [List.mem_toFinset] at hx ⊢
    obtain ⟨k, hk, rfl⟩ := List.mem_map.mp hx
    exact hcon k (by simpa using Nat.lt_succ_iff.mp (List.mem_range.mp hk))
  have h1 : l.toFinset.card = used.length + 1 := by
    rw [List.toFinset_card_of_nodup hnd, List.length_map, List.length_range]
  have h2 := Finset.card_le_card hsub
  have h3 := List.toFinset_card_le used
  omega

theorem freshEnumKeyGo_spec (used : List String) (base : String) : ∀ (fuel counter : Nat),
    (∃ i, counter ≤ i ∧ i < counter + fuel ∧ enumKeyCandidate base i ∉ used) →
    ∃ k, counter ≤ k ∧ freshEnumKeyGo used base counter fuel = enumKeyCandidate base k ∧
      enumKeyCandidate base k ∉ used ∧
      ∀ j, counter ≤ j → j < k → enumKeyCandidate base j ∈ used := by
  intro fuel
  induction fuel with
  | zero =>
    intro counter h
    obtain ⟨i, h1, h2, _⟩ := h
    omega
  | succ fuel ih =>
    intro counter h
    by_cases hc : enumKeyCandidate base counter ∈ used
    · obtain ⟨i, h1, h2, h3⟩ := h
      have hi : counter + 1 ≤ i := by
        rcases Nat.eq_or_lt_of_le h1 with rfl | hlt
        · exact absurd hc h3
        · omega
      obtain ⟨k, hk1, hk2, hk3, hk4⟩ := ih (counter + 1) ⟨i, hi, by omega, h3⟩
      refine ⟨k, by omega, ?_, hk3, ?_⟩
      · simpa [freshEnumKeyGo, hc] using hk2
      · intro j hj1 hj2
        rcases Nat.eq_or_lt_of_le hj1 with rfl | hlt
        · exact hc
        · exact hk4 j hlt hj2
    · exact ⟨counter, Nat.le_refl _, by simp [freshEnumKeyGo, hc], hc,
        fun j hj1 hj2 => absurd hj2 (by omega)⟩

/-- The enum key chosen at lines 246–255 is the first untried candidate:
it is `base` itself when `base` is unused (first occurrence keeps the bare
name), and otherwise `base_k` for the least `k` whose candidate is not in
the accumulated set. -/
theorem freshEnumKey_spec (used : List String) (base : String) :
    ∃ k, freshEnumKey used base = enumKeyCandidate base k ∧
      enumKeyCandidate base k ∉ used ∧
      ∀ j, j < k → enumKeyCandidate base j ∈ used := by
  obtain ⟨i, hi1, hi2⟩ := exists_fresh_candidate used base
  obtain ⟨k, _, hk2, hk3, hk4⟩ := freshEnumKeyGo_spec used base (used.length + 1) 0
    ⟨i, Nat.zero_le _, by omega, hi2⟩
  exact ⟨k, hk2, hk3, fun j hj => hk4 j (Nat.zero_le _) hj⟩

theorem freshEnumKey_not_mem (used : List String) (base : String) :
    freshEnumKey used base ∉ used := by
  obtain ⟨k, hk1, hk2, _⟩ := freshEnumKey_spec used base
  rw [hk1]
  exact hk2

theorem processFlags_spec (fs : List EppoFlag) : ∀ used : List String,
    ((processFlags used fs).map ProcessedFlag.enumKey).Nodup ∧
      ∀ p ∈ processFlags used fs, p.enumKey ∉ used := by
  induction fs with
  | nil => intro used; simp [processFlags]
  | cons f fs ih =>
    intro used
    obtain ⟨ih1, ih2⟩ := ih (used ++ [(processFlag used f).enumKey])
    have hfresh : (processFlag used f).enumKey ∉ used :=
      freshEnumKey_not_mem used (toEnumKey f.key)
    refine ⟨?_, ?_⟩
    · simp only [processFlags, List.map_cons, List.nodup_cons]
      refine ⟨?_, ih1⟩
      intro hmem
      obtain ⟨p, hp, he⟩ := List.mem_map.mp hmem
      have := ih2 p hp
      rw [he] at this
      exact this (by simp)
    · intro p hp
      simp only [processFlags, List.mem_cons] at hp
      rcases hp with rfl | hp
      · exact hfresh
      · have := ih2 p hp
        intro hmem
        exact this (by simp [hmem])

/-- C2: for every input configuration that is processed successfully, the
symbolic enum keys of the output flags are pairwise distinct
(`List.Nodup` is exactly pairwise `≠`). -/
theorem enum_keys_pairwise_distinct (config : GenConfig) (flags : List ProcessedFlag)
    (h : processedFlagsOf config = .ok flags) :
    (flags.map ProcessedFlag.enumKey).Nodup := by
  unfold processedFlagsOf at h
  cases hfd : flagsDataOf config with
  | error e => rw [hfd] at h; exact absurd h (by simp)
  | ok fd =>
    rw [hfd] at h
    have : processFlags [] fd = flags := by
      injection h
    rw [← this]
    exact (processFlags_spec fd []).1

/-- Witness for C2 at the two-flag configuration from the spec scenario. -/
theorem enum_keys_pairwise_distinct_witness :
    ((processFlags [] [⟨"dark mode", none, none⟩, ⟨"dark-mode", none, none⟩]).map
      ProcessedFlag.enumKey).Nodup :=
  enum_keys_pairwise_distinct
    (.api [⟨"dark mode", none, none⟩, ⟨"dark-mode", none, none⟩]) _ rfl

/-! ## The canonicalization algorithm as the spec words it (for C4)

The spec describes step 3 as stripping all leading and trailing
underscores, while the regex `/^_|_$/g` removes only one of each; the two
agree because step 2 has already collapsed runs. -/

/-- Collapse step as the spec words it: each maximal run of underscores
becomes a single underscore. -/
def collapseRunsSpec : List Char → List Char
  | [] => []
  | c :: rest =>
    if c = '_' then '_' :: collapseRunsSpec (rest.dropWhile (· == '_'))
    else c :: collapseRunsSpec rest
termination_by l => l.length
decreasing_by
  · simp only [List.length_cons]
    exact Nat.lt_succ_of_le ((List.dropWhile_sublist _).length_le)
  · simp only [List.length_cons]
    omega

/-- Strip step as the spec words it: remove all leading and all trailing
underscores. -/
def stripAllUnderscores (cs : List Char) : List Char :=
  ((cs.dropWhile (· == '_')).reverse.dropWhile (· == '_')).reverse

/-- `canonicalize` as written in the spec: (1) replace every character
outside `[A-Za-z0-9_]` with `_`; (2) collapse runs of `_` into one;
(3) strip leading and trailing underscores; (4) upper-case. -/
def canonicalizeSpec (rawKey : String) : String :=
  String.mk ((stripAllUnderscores (collapseRunsSpec
    (rawKey.data.map fun c => if c.isAlphanum ∨ c = '_' then c else '_'))).map Char.toUpper)

theorem collapseUnderscores_eq_spec : (cs : List Char) →
    collapseUnderscores cs = collapseRunsSpec cs
  | [] => by simp [collapseUnderscores, collapseRunsSpec]
  | [c] => by
    by_cases h : c = '_' <;>
      simp [collapseUnderscores, collapseRunsSpec, h]
  | c :: d :: rest => by
    have ih := collapseUnderscores_eq_spec (d :: rest)
    by_cases hc : c = '_'
    · by_cases hd : d = '_'
      · subst hc; subst hd
        rw [show collapseUnderscores ('_' :: '_' :: rest) = collapseUnderscores ('_' :: rest) by
          simp [collapseUnderscores]]
        rw [ih]
        rw [collapseRunsSpec, collapseRunsSpec]
        rw [List.dropWhile_cons_of_pos (by simp)]
        simp
      · subst hc
        rw [show collapseUnderscores ('_' :: d :: rest) = '_' :: collapseUnderscores (d :: rest) by
          simp [collapseUnderscores, hd]]
        rw [ih]
        conv_rhs => rw [collapseRunsSpec]
        rw [List.dropWhile_cons_of_neg (by simpa using hd)]
        simp
    · rw [show collapseUnderscores (c :: d :: rest) = c :: collapseUnderscores (d :: rest) by
        simp [collapseUnderscores, hc]]
      rw [ih]
      conv_rhs => rw [collapseRunsSpec]
      simp [hc]

/-- No two adjacent underscores survive the collapse step. -/
def NoAdjUnd (cs : List Char) : Prop :=
  List.Chain' (fun a b => ¬(a = '_' ∧ b = '_')) cs

theorem collapseUnderscores_head : (c : Char) → (cs : List Char) →
    (collapseUnderscores (c :: cs)).head? = some c
  | c, [] => rfl
  | c, d :: rest => by
    by_cases h : c = '_' ∧ d = '_'
    · rw [show collapseUnderscores (c :: d :: rest) = collapseUnderscores (d :: rest) by
        simp [collapseUnderscores, h]]
      rw [collapseUnderscores_head d rest, h.1, h.2]
    · simp [collapseUnderscores, h]

theorem collapseUnderscores_noAdj : (cs : List Char) → NoAdjUnd (collapseUnderscores cs)
  | [] => List.chain'_nil
  | [c] => by simp [NoAdjUnd, collapseUnderscores]
  | c :: d :: rest => by
    have ih := collapseUnderscores_noAdj (d :: rest)
    by_cases h : c = '_' ∧ d = '_'
    · rw [NoAdjUnd, show collapseUnderscores (c :: d :: rest) = collapseUnderscores (d :: rest) by
        simp [collapseUnderscores, h]]
      exact ih
    · rw [NoAdjUnd, show collapseUnderscores (c :: d :: rest) =
          c :: collapseUnderscores (d :: rest) by simp [collapseUnderscores, h]]
      rw [List.chain'_cons']
      refine ⟨?_, ih⟩
      intro b hb
      rw [collapseUnderscores_head d rest] at hb
      cases hb
      exact h

theorem dropWhile_noAdj_cons (r : List Char) (h : NoAdjUnd ('_' :: r)) :
    ('_' :: r).dropWhile (· == '_') = r := by
  rw [List.dropWhile_cons_of_pos (by simp)]
  match r, h with
  | [], _ => rfl
  | d :: r2, h =>
    have hd : d ≠ '_' := fun hdeq => (List.chain'_cons.mp h).1 ⟨rfl, hdeq⟩
    exact List.dropWhile_cons_of_neg (by simpa using hd)

theorem stripBack_of_noAdj (m : List Char) (h : NoAdjUnd m) :
    (if m.getLast? = some '_' then m.dropLast else m) =
      (m.reverse.dropWhile (· == '_')).reverse := by
  have hrevAdj : NoAdjUnd m.reverse := by
    refine List.chain'_reverse.mpr ?_
    exact h.imp fun a b hab hba => hab ⟨hba.2, hba.1⟩
  rcases hrev : m.reverse with _ | ⟨c, r⟩
  · have : m = [] := by simpa using congrArg List.reverse hrev
    subst this
    rfl
  · have hm : m = r.reverse ++ [c] := by
      have := congrArg List.reverse hrev
      simpa [List.reverse_cons] using this
    rw [hrev] at hrevAdj
    by_cases hc : c = '_'
    · subst hc
      rw [hm, List.getLast?_concat, if_pos rfl, List.dropLast_concat,
        dropWhile_noAdj_cons r hrevAdj]
    · rw [hm, List.getLast?_concat,
        if_neg (by simpa using hc),
        List.dropWhile_cons_of_neg (by simpa using hc)]
      simp [List.reverse_cons]

theorem stripEdge_eq_stripAll (cs : List Char) (h : NoAdjUnd cs) :
    stripEdgeUnderscore cs = stripAllUnderscores cs := by
  unfold stripEdgeUnderscore stripAllUnderscores
  rcases cs with _ | ⟨c, r⟩
  · rfl
  · by_cases hc : c = '_'
    · subst hc
      rw [dropWhile_noAdj_cons r h]
      simp only [if_pos rfl]
      exact stripBack_of_noAdj r ((List.chain'_cons'.mp h).2)
    · rw [List.dropWhile_cons_of_neg (by simpa using hc)]
      simp only [if_neg hc]
      exact stripBack_of_noAdj (c :: r) h

/-- C4: the canonicalization pipeline.  Part one: the implementation's
three regex replaces plus upper-casing compute exactly the four-step
algorithm the spec writes (in particular stripping one edge underscore
after collapsing equals stripping them all).  Part two: on a collision
the chosen name is `base_k` for the least `k ≥ 1` whose candidate is
unused, each candidate recomputed from the base, and an unused base keeps
the bare name (`enumKeyCandidate base 0 = base`).  Part three: the spec's
scenario — raw keys "dark mode" then "dark-mode" canonicalize to
DARK_MODE and DARK_MODE_1. -/
theorem canonicalization_algorithm :
    (∀ rawKey : String, toEnumKey rawKey = canonicalizeSpec rawKey) ∧
    (∀ (used : List String) (base : String), ∃ k,
        freshEnumKey used base = enumKeyCandidate base k ∧
        enumKeyCandidate base k ∉ used ∧
        ∀ j, j < k → enumKeyCandidate base j ∈ used) ∧
    ((processFlags [] [⟨"dark mode", none, none⟩, ⟨"dark-mode", none, none⟩]).map
        ProcessedFlag.enumKey = ["DARK_MODE", "DARK_MODE_1"]) := by
  refine ⟨?_, freshEnumKey_spec, rfl⟩
  intro rawKey
  unfold toEnumKey canonicalizeSpec replaceNonWord
  congr 1
  congr 1
  rw [← collapseUnderscores_eq_spec]
  exact stripEdge_eq_stripAll _ (collapseUnderscores_noAdj _)

/-- Witness for C4: the spec equivalence at "dark mode" and the collision
description at a concrete used set. -/
theorem canonicalization_algorithm_witness :
    toEnumKey "dark mode" = canonicalizeSpec "dark mode" ∧
    (∃ k, freshEnumKey ["DARK_MODE"] "DARK_MODE" = enumKeyCandidate "DARK_MODE" k ∧
      enumKeyCandidate "DARK_MODE" k ∉ ["DARK_MODE"] ∧
      ∀ j, j < k → enumKeyCandidate "DARK_MODE" j ∈ ["DARK_MODE"]) :=
  ⟨canonicalization_algorithm.1 "dark mode",
    canonicalization_algorithm.2.1 ["DARK_MODE"] "DARK_MODE"⟩

/-! ## C1: the spec scenario, evaluated -/

/-- The C1 scenario input
`{flags: {"dark-mode": {variationType: "BOOLEAN", variations:
{on: {key:"on", value:"true"}, off: {key:"off", value:"false"}}}}}`. -/
def darkModeFileConfig : GenConfig :=
  .file (some [("dark-mode", ⟨some "BOOLEAN",
    [("on", ⟨"on", .str "true"⟩), ("off", ⟨"off", .str "false"⟩)]⟩)])

/-- C1 (evaluation at the claim's input): the pipeline produces exactly
one flag named DARK_MODE of declared type BOOLEAN with variations keyed
on/off in input order — but both variation values are `false`, not
`true`/`false` as claimed.  Normalization turns file-shape variations
into arrays (lines 229–234), so extraction takes the array branch (lines
262–268), which overwrites each value with its variant key ("on"/"off"),
and boolean coercion sends both of those strings to `false`.  The raw
`value` fields "true"/"false" are threaded through normalization at line
233 and then never used (the file-format branch at lines 270–274 that
would use them is unreachable). -/
theorem dark_mode_scenario_actual_output :
    processedFlagsOf darkModeFileConfig =
      .ok [{ key := "dark-mode", enumKey := "DARK_MODE", type := "BOOLEAN",
             variations := [⟨some "on", .bool false⟩, ⟨some "off", .bool false⟩] }] := rfl

/-! ## C5: empty and shapeless inputs -/

/-- C5: each of the three empty/shapeless inputs — an object without a
`flags` mapping (`{}`), an empty array (`[]`), and an object with an
empty `flags` mapping (`{flags: {}}`) — makes the generator throw the
config-shape error `No flags found in config`, so the run aborts with no
output: the file write at line 338 is only reached with the fully
rendered text in hand, and the `catch` at line 350 exits the process. -/
theorem empty_config_shape_error (sourceName timestamp : String) :
    generateEnumsFromConfig (.file none) sourceName timestamp =
        .error "No flags found in config" ∧
      generateEnumsFromConfig (.api []) sourceName timestamp =
        .error "No flags found in config" ∧
      generateEnumsFromConfig (.file (some [])) sourceName timestamp =
        .error "No flags found in config" :=
  ⟨rfl, rfl, rfl⟩

/-! ## C7: totality of the coercer and null/absent handling -/

/-- C7: the value coercer is total — it is a plain function of type
`JsValue → String → JsValue` in which the only fallible call,
`JSON.parse`, is wrapped in the modelled `try/catch` (`Option.getD`), so
no input can make it throw — and a `null` or absent (`undefined`) raw
value is returned as `null` regardless of the declared type. -/
theorem coercer_total_null_absent (variationType : String) :
    convertVariationValue .null variationType = .null ∧
      convertVariationValue .undef variationType = .null :=
  ⟨rfl, rfl⟩

/-! ## C8: NUMBER/NUMERIC coercion -/

/-- C8: for declared type NUMBER or NUMERIC, numbers pass through
unchanged; a string is parsed with `parseFloat`, keeping the parsed value
on success and returning the original string unmodified on failure — in
particular an unparsable string never becomes any number, let alone
zero, and nothing throws (the function is total). -/
theorem number_coercion (t : String) (ht : t = "NUMBER" ∨ t = "NUMERIC") :
    (∀ q : ℚ, convertVariationValue (.num q) t = .num q) ∧
    (∀ s : String,
      (∀ q, jsParseFloat s = some q → convertVariationValue (.str s) t = .num q) ∧
      (jsParseFloat s = none → convertVariationValue (.str s) t = .str s ∧
        ∀ q : ℚ, convertVariationValue (.str s) t ≠ .num q)) := by
  refine ⟨?_, ?_⟩
  · intro q
    rcases ht with rfl | rfl <;> rfl
  · intro s
    refine ⟨?_, ?_⟩
    · intro q hq
      rcases ht with rfl | rfl <;> simp [convertVariationValue, hq]
    · intro hq
      rcases ht with rfl | rfl <;>
        exact ⟨by simp [convertVariationValue, hq],
          fun q => by simp [convertVariationValue, hq]⟩

/-- Witness for C8 at `t = "NUMBER"`: a number, a parsable string and an
unparsable string. -/
theorem number_coercion_witness :
    convertVariationValue (.num 7) "NUMBER" = .num 7 ∧
    convertVariationValue (.str "2.5") "NUMBER" = .num (mkRat 5 2) ∧
    convertVariationValue (.str "abc") "NUMBER" = .str "abc" :=
  ⟨(number_coercion "NUMBER" (Or.inl rfl)).1 7,
   ((number_coercion "NUMBER" (Or.inl rfl)).2 "2.5").1 (mkRat 5 2) rfl,
   (((number_coercion "NUMBER" (Or.inl rfl)).2 "abc").2 rfl).1⟩

/-! ## C6: idempotence of coercion -/

/-- Per-character escaping as the claim words it: backslash, double
quote, newline, carriage return and tab are escaped (the backslash case
first), every other character is kept. -/
def escapeSpecChar (c : Char) : List Char :=
  if c = '\\' then ['\\', '\\']
  else if c = '"' then ['\\', '"']
  else if c = '\n' then ['\\', 'n']
  else if c = '\r' then ['\\', 'r']
  else if c = '\t' then ['\\', 't']
  else [c]

/-- The literal formatter as the claim words it: null (and the absent
value, which the code folds into the same first guard) to the null token,
booleans and numbers to their literal token, structured values to a
recursively rendered unquoted literal, and strings to a double-quoted
literal escaped character by character. -/
def formatSpec : JsValue → String
  | .null => "null"
  | .undef => "null"
  | .bool b => if b then "true" else "false"
  | .num q => numToString q
  | .arr xs => jsonStringify (.arr xs)
  | .obj fs => jsonStringify (.obj fs)
  | .str s => "\"" ++ String.mk (s.data.flatMap escapeSpecChar) ++ "\""

theorem replaceChar_append (p : Char) (r x y : List Char) :
    replaceChar p r (x ++ y) = replaceChar p r x ++ replaceChar p r y := by
  simp [replaceChar]

theorem replaceChar_cons (p : Char) (r : List Char) (c : Char) (y : List Char) :
    replaceChar p r (c :: y) = (if c = p then r else [c]) ++ replaceChar p r y := by
  simp [replaceChar]

/-- The five sequential global replaces equal the single-pass
per-character escape: the escapes introduced by an earlier pass are never
rewritten by a later one, precisely because backslashes are escaped
first. -/
theorem escape_chain (cs : List Char) :
    replaceChar '\t' ['\\', 't'] (replaceChar '\r' ['\\', 'r'] (replaceChar '\n' ['\\', 'n']
      (replaceChar '"' ['\\', '"'] (replaceChar '\\' ['\\', '\\'] cs)))) =
    cs.flatMap escapeSpecChar := by
  induction cs with
  | nil => rfl
  | cons c cs ih =>
    rw [replaceChar_cons, replaceChar_append, replaceChar_append, replaceChar_append,
      replaceChar_append, ih, List.flatMap_cons]
    congr 1
    by_cases h1 : c = '\\'
    · subst h1; rfl
    · by_cases h2 : c = '"'
      · subst h2; rfl
      · by_cases h3 : c = '\n'
        · subst h3; rfl
        · by_cases h4 : c = '\r'
          · subst h4; rfl
          · by_cases h5 : c = '\t'
            · subst h5; rfl
            · simp [escapeSpecChar, replaceChar, h1, h2, h3, h4, h5]

/-- C9: the implemented literal formatter computes exactly the mapping
the claim describes (`formatSpec`), value by value. -/
theorem format_value_matches_spec (v : JsValue) :
    formatValueForTypeScript v = formatSpec v := by
  cases v with
  | str s =>
    show "\"" ++ escapeStringTS s ++ "\"" = "\"" ++ String.mk (s.data.flatMap escapeSpecChar) ++ "\""
    rw [escapeStringTS, escape_chain]
  | null => rfl
  | undef => rfl
  | bool b => rfl
  | num q => rfl
  | arr xs => rfl
  | obj fs => rfl

/-! ## C10: variation extraction in array shape -/

/-- C10: extraction of array-shape variations (lines 262–268) is exactly:
keep the variations whose `variant_key` is present and non-empty (the
others are silently dropped), and map each kept one to
`{key := variant_key, value := the variant_key string}`.  The raw `value`
field does not occur on the right-hand side, so it never influences the
output; the second conjunct spells out that every surviving value is the
variant-key string. -/
theorem extract_variations_spec (vs : List EppoVariation) :
    extractVariations vs =
      (vs.filter fun v => truthyKey v.variant_key).map
        (fun v => { key := v.variant_key, value := jsOfKey v.variant_key }) ∧
    ∀ w ∈ extractVariations vs, ∃ k, k ≠ "" ∧ w.key = some k ∧ w.value = .str k := by
  have hmain : extractVariations vs =
      (vs.filter fun v => truthyKey v.variant_key).map
        (fun v => { key := v.variant_key, value := jsOfKey v.variant_key }) := by
    unfold extractVariations
    rw [List.filter_map]
    rfl
  refine ⟨hmain, ?_⟩
  intro w hw
  rw [hmain] at hw
  obtain ⟨v, hv, rfl⟩ := List.mem_map.mp hw
  have htr := (List.mem_filter.mp hv).2
  cases hk : v.variant_key with
  | none => rw [hk] at htr; exact absurd htr (by simp [truthyKey])
  | some k =>
    rw [hk] at htr
    have hne : k ≠ "" := by simpa [truthyKey] using htr
    exact ⟨k, hne, by simp [hk], by simp [hk, jsOfKey]⟩

/-- Witness for C10 at a list with a kept, an absent-key and an
empty-key variation. -/
theorem extract_variations_spec_witness :
    extractVariations [⟨0, "a", some "a", .str "raw1"⟩, ⟨1, "b", none, .str "raw2"⟩,
        ⟨2, "c", some "", .str "raw3"⟩] =
      [{ key := some "a", value := .str "a" }] := by
  rw [(extract_variations_spec _).1]
  rfl

/-! ## C3: the emitted table does not round-trip

Two different inputs can emit byte-identical text, so no parse of the
emitted table can recover the fed-in triples; and a newline inside a
source key tears the emitted entry's string literal across lines, so the
artifact is not always syntactically valid either.  What does survive —
source key, declared type, and the coerced variation values, in order —
is recovered by the parser below, which decodes the emitter's string
escaping and reads back null, boolean, integer and string tokens. -/

/-- Drop an expected literal character sequence from the front. -/
def skipLit : List Char → List Char → Option (List Char)
  | [], r => some r
  | _, [] => none
  | p :: ps, c :: cs => if c = p then skipLit ps cs else none

/-- Split at the first occurrence of a character: the content before it
and the rest after it. -/
def splitAtChar (t : Char) : List Char → Option (List Char × List Char)
  | [] => none
  | c :: cs =>
    if c = t then some ([], cs)
    else (splitAtChar t cs).map fun p => (c :: p.1, p.2)

/-- Split on every occurrence of a character. -/
def splitOnChar (t : Char) : List Char → List (List Char)
  | [] => [[]]
  | c :: cs =>
    if c = t then [] :: splitOnChar t cs
    else match splitOnChar t cs with
      | [] => [[c]]
      | l :: ls => (c :: l) :: ls

/-- Undo one string-literal escape introduced by the emitter's
`escapeStringTS` chain. -/
def tsUnesc (e : Char) : Option Char :=
  if e = '\\' then some '\\'
  else if e = '"' then some '"'
  else if e = 'n' then some '\n'
  else if e = 'r' then some '\r'
  else if e = 't' then some '\t'
  else none

/-- Body of an emitted string literal after the opening quote: decodes
the emitter's escapes up to the closing quote, returning the decoded
content and the input after the closing quote.  The boolean records
whether the previous character was an unconsumed backslash. -/
def tsStringBodyGo : Bool → List Char → Option (List Char × List Char)
  | _, [] => none
  | true, e :: r =>
    match tsUnesc e with
    | some u => (tsStringBodyGo false r).map fun p => (u :: p.1, p.2)
    | none => none
  | false, c :: r =>
    if c = '"' then some ([], r)
    else if c = '\\' then tsStringBodyGo true r
    else (tsStringBodyGo false r).map fun p => (c :: p.1, p.2)

/-- The string-literal body scanner started outside an escape. -/
def tsStringBody : List Char → Option (List Char × List Char) := tsStringBodyGo false

/-- The `null`, `true` and `false` tokens. -/
def parseWordValue : List Char → Option (JsValue × List Char)
  | 'n' :: 'u' :: 'l' :: 'l' :: r2 => some (.null, r2)
  | 't' :: 'r' :: 'u' :: 'e' :: r2 => some (.bool true, r2)
  | 'f' :: 'a' :: 'l' :: 's' :: 'e' :: r2 => some (.bool false, r2)
  | _ => none

/-- Parse one rendered variation value from the front of the input: a
digit run (optionally negated) as an integer, a quoted string with the
emitter's escapes decoded, or the null and boolean tokens. -/
def parseOneValue (cs : List Char) : Option (JsValue × List Char) :=
  match cs with
  | [] => none
  | c :: r =>
    if c.isDigit then
      let p := takeDigits (c :: r)
      some (.num (mkRat (digitsToNat p.1 : Int) 1), p.2)
    else if c = '-' then
      let p := takeDigits r
      if p.1 = [] then none
      else some (.num (mkRat (-(digitsToNat p.1 : Int)) 1), p.2)
    else if c = '"' then
      (tsStringBody r).map fun p => (JsValue.str (String.mk p.1), p.2)
    else parseWordValue (c :: r)

/-- After one parsed value: the closing bracket ends the list, a `", "`
separator precedes the next value.  The fuel only bounds the number of
separators, so any fuel at least the value count suffices. -/
def parseValuesTail : Nat → List Char → Option (List JsValue × List Char)
  | _, ']' :: r => some ([], r)
  | fuel + 1, ',' :: ' ' :: r2 =>
    match parseOneValue r2 with
    | none => none
    | some (v, r3) =>
      match parseValuesTail fuel r3 with
      | none => none
      | some (vs, r4) => some (v :: vs, r4)
  | _, _ => none

/-- The value list after the opening bracket: empty, or one value and a
tail of separated values, ending at the closing bracket. -/
def parseValuesAndClose (fuel : Nat) (cs : List Char) : Option (List JsValue × List Char) :=
  match cs with
  | [] => none
  | c :: r =>
    if c = ']' then some ([], r)
    else
      match parseOneValue (c :: r) with
      | none => none
      | some (v, r2) =>
        match parseValuesTail fuel r2 with
        | none => none
        | some (vs, r3) => some (v :: vs, r3)

/-- Parse one emitted table entry line (with or without its trailing
comma), recovering the quoted source key, the quoted type, and the
variation value list. -/
def parseEntryLine (line : List Char) : Option (String × String × List JsValue) := do
  let r1 ← skipLit "  ".data line
  let p1 ← splitAtChar ':' r1
  let r3 ← skipLit " \x7b key: \"".data p1.2
  let p2 ← splitAtChar '"' r3
  let r5 ← skipLit " as const, type: \"".data p2.2
  let p3 ← splitAtChar '"' r5
  let r7 ← skipLit " as const, variations: [".data p3.2
  let pv ← parseValuesAndClose (r7.length + 1) r7
  let r9 ← skipLit " as const \x7d".data pv.2
  if r9 = [] ∨ r9 = [','] then some (String.mk p2.1, String.mk p3.1, pv.1) else none

/-- Skip lines up to and including the table's opening line. -/
def dropThroughMarker : List (List Char) → Option (List (List Char))
  | [] => none
  | l :: ls =>
    if l = "export const EppoFlags = \x7b".data then some ls
    else dropThroughMarker ls

/-- Take the lines strictly before the table's closing line. -/
def takeBeforeEnd : List (List Char) → Option (List (List Char))
  | [] => none
  | l :: ls =>
    if l = "\x7d as const;".data then some []
    else (takeBeforeEnd ls).map (l :: ·)

/-- Parse the emitted module text back into one
`(sourceKey, declaredType, variation values)` triple per table entry. -/
def parseEmitted (text : String) : Option (List (String × String × List JsValue)) := do
  let lines := splitOnChar '\n' text.data
  let afterHeader ← dropThroughMarker lines
  let entryLines ← takeBeforeEnd afterHeader
  entryLines.mapM parseEntryLine

/-- C3 counterexample, refuting both conjuncts of the claim.
Round trip: two API configurations that differ in the fed-in variations
(variant keys "on" vs "yes", raw values "x" vs "y") emit byte-identical
module text for the same timestamp, because the table stores only the
coerced variation values and both variant keys coerce to `false` under
BOOLEAN; hence no parse of the emitted table can recover the original
`(sourceKey, declaredType, variations)` triples.
Syntactic validity: a source key containing a newline (accepted by the
pipeline, third conjunct) is interpolated unescaped into the entry's key
string literal, so the emitted text contains the line
`  LINE_BREAK: { key: "line` — a string literal torn open across a line
break, which no target-language parser accepts (fourth conjunct exhibits
the torn line). -/
theorem emitted_text_not_invertible :
    (generateEnumsFromConfig
        (.api [⟨"feature", some "BOOLEAN", some [⟨0, "on", some "on", .str "x"⟩]⟩]) "cfg" "TS" =
      generateEnumsFromConfig
        (.api [⟨"feature", some "BOOLEAN", some [⟨0, "yes", some "yes", .str "y"⟩]⟩]) "cfg" "TS" ∧
    processedFlagsOf
        (.api [⟨"feature", some "BOOLEAN", some [⟨0, "on", some "on", .str "x"⟩]⟩]) ≠
      processedFlagsOf
        (.api [⟨"feature", some "BOOLEAN", some [⟨0, "yes", some "yes", .str "y"⟩]⟩])) ∧
    (processedFlagsOf (.api [⟨"line\nbreak", some "STRING", none⟩]) =
      .ok [{ key := "line\nbreak", enumKey := "LINE_BREAK", type := "STRING",
             variations := [] }] ∧
    "  LINE_BREAK: \x7b key: \"line".data ∈
      splitOnChar '\n'
        (moduleText [{ key := "line\nbreak", enumKey := "LINE_BREAK",
                       type := "STRING", variations := [] }] "cfg" "TS").data) := by
  refine ⟨⟨rfl, ?_⟩, ?_, ?_⟩
  · intro h
    have hk := congrArg (fun e => match e with
      | Except.ok (f :: _) => (f.variations.headD ⟨none, .null⟩).key
      | _ => (none : Option String)) h
    exact absurd hk (by decide)
  · rfl
  · decide

/-! ### Parser primitive lemmas -/

theorem skipLit_append : ∀ (p r : List Char), skipLit p (p ++ r) = some r
  | [], r => by simp [skipLit]
  | c :: ps, r => by
    simp only [List.cons_append, skipLit, if_pos rfl]
    exact skipLit_append ps r

theorem splitAtChar_append (t : Char) : ∀ (a : List Char), t ∉ a → ∀ b : List Char,
    splitAtChar t (a ++ t :: b) = some (a, b)
  | [], _, b => by simp [splitAtChar]
  | c :: a2, ha, b => by
    have hc : c ≠ t := fun h => ha (h ▸ List.mem_cons_self c a2)
    have ha2 : t ∉ a2 := fun h => ha (List.mem_cons_of_mem c h)
    simp only [List.cons_append, splitAtChar, if_neg hc]
    rw [show a2.append (t :: b) = a2 ++ t :: b from rfl, splitAtChar_append t a2 ha2 b]
    rfl

theorem splitOnChar_append (t : Char) : ∀ (a : List Char), t ∉ a → ∀ r : List Char,
    splitOnChar t (a ++ t :: r) = a :: splitOnChar t r
  | [], _, r => by simp [splitOnChar]
  | c :: a2, ha, r => by
    have hc : c ≠ t := fun h => ha (h ▸ List.mem_cons_self c a2)
    have ha2 : t ∉ a2 := fun h => ha (List.mem_cons_of_mem c h)
    simp only [List.cons_append, splitOnChar, if_neg hc]
    rw [show a2.append (t :: r) = a2 ++ t :: r from rfl, splitOnChar_append t a2 ha2 r]

/-! ### Safety: recoverable flags -/

/-- Variation values covered by the amended round trip: null, booleans,
integer-valued numbers (the only numbers whose rendering the
`numToString` model commits to JS semantics on), and arbitrary strings
(the emitter's escaping is decoded by the parser). -/
def safeValue : JsValue → Bool
  | .null => true
  | .bool _ => true
  | .num q => q.den = 1
  | .str _ => true
  | _ => false

/-- Flags covered by the amended round trip: key and type free of quotes
and newlines (they are interpolated unescaped), enum key free of colons
and newlines, type not JSON, and all variation values safe. -/
def safeFlag (f : ProcessedFlag) : Bool :=
  f.enumKey.data.all (fun c => !(c = ':' ∨ c = '\n')) &&
  f.key.data.all (fun c => !(c = '"' ∨ c = '\n')) &&
  f.type.data.all (fun c => !(c = '"' ∨ c = '\n')) &&
  !(f.type = "JSON") &&
  f.variations.all (fun v => safeValue v.value)

/-- The exact character content a safe variation value renders to. -/
def renderedToken : JsValue → List Char
  | .null => "null".data
  | .bool true => "true".data
  | .bool false => "false".data
  | .num q => (intToString q.num).data
  | .str s => '"' :: (s.data.flatMap escapeSpecChar ++ ['"'])
  | _ => []

theorem escapeStringTS_data (s : String) :
    (escapeStringTS s).data = s.data.flatMap escapeSpecChar := escape_chain s.data

/-- For a non-JSON flag type, a safe value renders to its token. -/
theorem renderValue_data (t : String) (ht : (t = "JSON") = False) (v : JsValue)
    (hv : safeValue v = true) :
    (renderVariationValue t v).data = renderedToken v := by
  unfold renderVariationValue
  rw [if_neg (ht ▸ fun h => h)]
  cases v with
  | null => rfl
  | bool b => cases b <;> rfl
  | num q =>
    have hden : q.den = 1 := by simpa [safeValue] using hv
    show (numToString q).data = _
    rw [show numToString q = intToString q.num by simp [numToString, hden]]
    rfl
  | str s =>
    show ("\"" ++ escapeStringTS s ++ "\"").data = _
    rw [String.data_append, String.data_append, escapeStringTS_data]
    simp [renderedToken]
  | undef => exact absurd hv (by simp [safeValue])
  | arr xs => exact absurd hv (by simp [safeValue])
  | obj fs => exact absurd hv (by simp [safeValue])

theorem toDigits_ne_nil (n : Nat) : Nat.toDigits 10 n ≠ [] := by
  intro h
  exact natRepr_ne_empty n (String.ext (show (Nat.repr n).data = "".data from h))

theorem intToString_data_ne_nil (n : Int) : (intToString n).data ≠ [] := by
  unfold intToString
  split
  · rw [String.data_append]
    simp
  · exact toDigits_ne_nil n.natAbs

theorem renderedToken_ne_nil (v : JsValue) (hv : safeValue v = true) :
    renderedToken v ≠ [] := by
  cases v with
  | null => simp [renderedToken]
  | bool b => cases b <;> simp [renderedToken]
  | num q => exact intToString_data_ne_nil q.num
  | str s => simp [renderedToken]
  | undef => exact absurd hv (by simp [safeValue])
  | arr xs => exact absurd hv (by simp [safeValue])
  | obj fs => exact absurd hv (by simp [safeValue])

theorem digitChar_isDigit (d : Nat) (h : d < 10) : (Nat.digitChar d).isDigit = true := by
  interval_cases d <;> decide

theorem toDigits_all_digits : ∀ n : Nat, ∀ c ∈ Nat.toDigits 10 n, c.isDigit = true := by
  intro n
  induction n using Nat.strong_induction_on with
  | _ n ih =>
    intro c hc
    by_cases h : n < 10
    · have h0 : n / 10 = 0 := Nat.div_eq_of_lt h
      simp only [Nat.toDigits, Nat.toDigitsCore, h0, if_true] at hc
      rw [List.mem_singleton] at hc
      subst hc
      exact digitChar_isDigit (n % 10) (Nat.mod_lt _ (by omega))
    · have h0 : n / 10 ≠ 0 := by
        intro hcon; exact h (by omega)
      have hlt : n / 10 < n := Nat.div_lt_self (by omega) (by omega)
      have step : Nat.toDigits 10 n =
          Nat.toDigits 10 (n / 10) ++ [Nat.digitChar (n % 10)] := by
        show Nat.toDigitsCore 10 (n + 1) n [] = _
        simp only [Nat.toDigitsCore, h0, if_false]
        rw [toDigitsCore_acc]
        congr 1
        exact toDigitsCore_fuel n (n / 10 + 1) (n / 10) [] (by omega) (by omega)
      rw [step, List.mem_append] at hc
      rcases hc with hc | hc
      · exact ih (n / 10) hlt c hc
      · rw [List.mem_singleton] at hc
        subst hc
        exact digitChar_isDigit (n % 10) (Nat.mod_lt _ (by omega))

theorem escapeSpecChar_mem_ne_nl (c c2 : Char) (h : c2 ∈ escapeSpecChar c) : c2 ≠ '\n' := by
  unfold escapeSpecChar at h
  repeat' split at h
  all_goals simp_all
  all_goals (rcases h with rfl | rfl <;> decide)

theorem renderedToken_no_nl (v : JsValue) (hv : safeValue v = true) :
    ∀ c ∈ renderedToken v, c ≠ '\n' := by
  cases v with
  | null =>
    intro c hc
    fin_cases hc <;> decide
  | bool b =>
    cases b <;>
      (intro c hc
       fin_cases hc <;> decide)
  | num q =>
    intro c hc
    rw [show renderedToken (.num q) = (intToString q.num).data from rfl] at hc
    unfold intToString at hc
    have hdig : c.isDigit = true → c ≠ '\n' := by
      intro hd hEq
      rw [hEq] at hd
      exact absurd hd (by decide)
    split at hc
    · rw [String.data_append, List.mem_append] at hc
      rcases hc with hc | hc
      · rw [show ("-").data = ['-'] from rfl, List.mem_singleton] at hc
        subst hc
        decide
      · exact hdig (toDigits_all_digits q.num.natAbs c hc)
    · exact hdig (toDigits_all_digits q.num.natAbs c hc)
  | str s =>
    intro c hc
    rw [show renderedToken (.str s) = '"' :: (s.data.flatMap escapeSpecChar ++ ['"'])
        from rfl, List.mem_cons] at hc
    rcases hc with rfl | hc
    · decide
    · rw [List.mem_append] at hc
      rcases hc with hc | hc
      · obtain ⟨a, _, hmem⟩ := List.mem_flatMap.mp hc
        exact escapeSpecChar_mem_ne_nl a c hmem
      · rw [List.mem_singleton] at hc
        subst hc
        decide
  | undef => exact absurd hv (by simp [safeValue])
  | arr xs => exact absurd hv (by simp [safeValue])
  | obj fs => exact absurd hv (by simp [safeValue])

theorem renderedToken_head_shape (v : JsValue) (hv : safeValue v = true) :
    ∃ d tl, renderedToken v = d :: tl ∧ d ≠ ']' := by
  cases v with
  | null => exact ⟨'n', _, rfl, by decide⟩
  | bool b =>
    cases b with
    | false => exact ⟨'f', _, rfl, by decide⟩
    | true => exact ⟨'t', _, rfl, by decide⟩
  | str s => exact ⟨'"', _, rfl, by decide⟩
  | num q =>
    by_cases hneg : q.num < 0
    · refine ⟨'-', (Nat.repr q.num.natAbs).data, ?_, by decide⟩
      show (intToString q.num).data = _
      unfold intToString
      rw [if_pos hneg, String.data_append]
      rfl
    · obtain ⟨d, ds, hds⟩ := List.exists_cons_of_ne_nil (toDigits_ne_nil q.num.natAbs)
      refine ⟨d, ds, ?_, ?_⟩
      · show (intToString q.num).data = _
        unfold intToString
        rw [if_neg hneg]
        exact hds
      · have hdig : d.isDigit = true :=
          toDigits_all_digits _ d (by rw [hds]; exact List.mem_cons_self d ds)
        intro h
        subst h
        exact absurd hdig (by decide)
  | undef => exact absurd hv (by simp [safeValue])
  | arr xs => exact absurd hv (by simp [safeValue])
  | obj fs => exact absurd hv (by simp [safeValue])

/-! ### Parsing one rendered value -/

theorem tsStringBody_escaped : ∀ (l : List Char) (S : List Char),
    tsStringBody (l.flatMap escapeSpecChar ++ '"' :: S) = some (l, S)
  | [], S => by
    show tsStringBody ('"' :: S) = some ([], S)
    rfl
  | c :: l, S => by
    have ih := tsStringBody_escaped l S
    by_cases h1 : c = '\\'
    · subst h1
      rw [show ('\\' :: l).flatMap escapeSpecChar ++ '"' :: S =
          '\\' :: '\\' :: (l.flatMap escapeSpecChar ++ '"' :: S) by
        simp [escapeSpecChar]]
      show (tsStringBody (l.flatMap escapeSpecChar ++ '"' :: S)).map _ = _
      rw [ih]
      rfl
    · by_cases h2 : c = '"'
      · subst h2
        rw [show ('"' :: l).flatMap escapeSpecChar ++ '"' :: S =
            '\\' :: '"' :: (l.flatMap escapeSpecChar ++ '"' :: S) by
          simp [escapeSpecChar]]
        show (tsStringBody (l.flatMap escapeSpecChar ++ '"' :: S)).map _ = _
        rw [ih]
        rfl
      · by_cases h3 : c = '\n'
        · subst h3
          rw [show ('\n' :: l).flatMap escapeSpecChar ++ '"' :: S =
              '\\' :: 'n' :: (l.flatMap escapeSpecChar ++ '"' :: S) by
            simp [escapeSpecChar]]
          show (tsStringBody (l.flatMap escapeSpecChar ++ '"' :: S)).map _ = _
          rw [ih]
          rfl
        · by_cases h4 : c = '\r'
          · subst h4
            rw [show ('\r' :: l).flatMap escapeSpecChar ++ '"' :: S =
                '\\' :: 'r' :: (l.flatMap escapeSpecChar ++ '"' :: S) by
              simp [escapeSpecChar]]
            show (tsStringBody (l.flatMap escapeSpecChar ++ '"' :: S)).map _ = _
            rw [ih]
            rfl
          · by_cases h5 : c = '\t'
            · subst h5
              rw [show ('\t' :: l).flatMap escapeSpecChar ++ '"' :: S =
                  '\\' :: 't' :: (l.flatMap escapeSpecChar ++ '"' :: S) by
                simp [escapeSpecChar]]
              show (tsStringBody (l.flatMap escapeSpecChar ++ '"' :: S)).map _ = _
              rw [ih]
              rfl
            · rw [show (c :: l).flatMap escapeSpecChar ++ '"' :: S =
                  c :: (l.flatMap escapeSpecChar ++ '"' :: S) by
                simp [escapeSpecChar, h1, h2, h3, h4, h5]]
              show tsStringBodyGo false (c :: (l.flatMap escapeSpecChar ++ '"' :: S)) = _
              simp only [tsStringBodyGo, if_neg h2, if_neg h1]
              rw [show tsStringBodyGo false (l.flatMap escapeSpecChar ++ '"' :: S) =
                some (l, S) from ih]
              rfl

theorem takeDigits_digits_append : ∀ (ds : List Char), (∀ c ∈ ds, c.isDigit = true) →
    ∀ (x : Char) (r : List Char), x.isDigit = false →
    takeDigits (ds ++ x :: r) = (ds, x :: r)
  | [], _, x, r, hx => by simp [takeDigits, hx]
  | d :: ds, h, x, r, hx => by
    have hd := h d (List.mem_cons_self d ds)
    have ih := takeDigits_digits_append ds
      (fun c hc => h c (List.mem_cons_of_mem d hc)) x r hx
    simp only [List.cons_append, takeDigits, hd, if_true, List.append_eq, ih]

theorem mkRat_of_den_one (q : ℚ) (h : q.den = 1) : mkRat q.num 1 = q := by
  rw [← h, Rat.mkRat_self]

/-- A rendered safe value parses back to itself from the front, whatever
non-digit-headed input follows it. -/
theorem parseOneValue_render (v : JsValue) (hv : safeValue v = true)
    (x : Char) (S : List Char) (hx : x.isDigit = false) :
    parseOneValue (renderedToken v ++ x :: S) = some (v, x :: S) := by
  cases v with
  | null => rfl
  | bool b => cases b <;> rfl
  | str s =>
    rw [show renderedToken (.str s) ++ x :: S =
        '"' :: (s.data.flatMap escapeSpecChar ++ '"' :: (x :: S)) by
      simp [renderedToken, List.append_assoc]]
    show (tsStringBody (s.data.flatMap escapeSpecChar ++ '"' :: (x :: S))).map _ = _
    rw [tsStringBody_escaped]
    rfl
  | num q =>
    have hden : q.den = 1 := by simpa [safeValue] using hv
    by_cases hneg : q.num < 0
    · rw [show renderedToken (.num q) ++ x :: S =
          '-' :: (Nat.toDigits 10 q.num.natAbs ++ x :: S) by
        show (intToString q.num).data ++ x :: S = _
        unfold intToString
        rw [if_pos hneg, String.data_append]
        rfl]
      simp only [parseOneValue, if_true]
      rw [takeDigits_digits_append _ (toDigits_all_digits _) x S hx]
      dsimp only
      rw [if_neg (toDigits_ne_nil q.num.natAbs)]
      rw [show digitsToNat (Nat.toDigits 10 q.num.natAbs) = q.num.natAbs from
        decDigitsVal_toDigits _]
      rw [show -((q.num.natAbs : Int)) = q.num by omega, mkRat_of_den_one q hden]
      rw [if_neg (show ¬(('-').isDigit = true) by decide)]
    · obtain ⟨d, ds, hds⟩ := List.exists_cons_of_ne_nil (toDigits_ne_nil q.num.natAbs)
      have hall : ∀ c ∈ Nat.toDigits 10 q.num.natAbs, c.isDigit = true :=
        toDigits_all_digits _
      have hd : d.isDigit = true := hall d (by rw [hds]; exact List.mem_cons_self d ds)
      have htd : takeDigits (d :: (ds ++ x :: S)) = (d :: ds, x :: S) := by
        rw [show d :: (ds ++ x :: S) = (d :: ds) ++ x :: S from rfl]
        exact takeDigits_digits_append (d :: ds) (hds ▸ hall) x S hx
      rw [show renderedToken (.num q) ++ x :: S =
          d :: (ds ++ x :: S) by
        show (intToString q.num).data ++ x :: S = _
        unfold intToString
        rw [if_neg hneg, show (Nat.repr q.num.natAbs).data =
          Nat.toDigits 10 q.num.natAbs from rfl, hds]
        rfl]
      simp only [parseOneValue]
      rw [if_pos hd, htd]
      dsimp only
      rw [show digitsToNat (d :: ds) = q.num.natAbs by
        rw [← hds]; exact decDigitsVal_toDigits _]
      rw [show ((q.num.natAbs : Nat) : Int) = q.num by omega, mkRat_of_den_one q hden]
  | undef => exact absurd hv (by simp [safeValue])
  | arr xs => exact absurd hv (by simp [safeValue])
  | obj fs => exact absurd hv (by simp [safeValue])

/-! ### The joined value list -/

/-- Character-level content of the `", "`-joined token list. -/
def joinTokens : List (List Char) → List Char
  | [] => []
  | [x] => x
  | x :: xs => x ++ ',' :: ' ' :: joinTokens xs

theorem joinSep_data_commaSpace : ∀ strs : List String,
    (joinSep ", " strs).data = joinTokens (strs.map String.data)
  | [] => rfl
  | [x] => rfl
  | x :: y :: t => by
    show (x ++ ", " ++ joinSep ", " (y :: t)).data = _
    rw [String.data_append, String.data_append,
      joinSep_data_commaSpace (y :: t)]
    simp [joinTokens, List.append_assoc]

theorem joinTokens_mem : ∀ (toks : List (List Char)) (c : Char), c ∈ joinTokens toks →
    (∃ tk ∈ toks, c ∈ tk) ∨ c = ',' ∨ c = ' '
  | [], c, h => by cases h
  | [x], c, h => Or.inl ⟨x, by simp, h⟩
  | x :: y :: t, c, h => by
    rw [show joinTokens (x :: y :: t) = x ++ ',' :: ' ' :: joinTokens (y :: t) from rfl,
      List.mem_append] at h
    rcases h with h | h
    · exact Or.inl ⟨x, by simp, h⟩
    · rw [List.mem_cons] at h
      rcases h with rfl | h
      · exact Or.inr (Or.inl rfl)
      · rw [List.mem_cons] at h
        rcases h with rfl | h
        · exact Or.inr (Or.inr rfl)
        · rcases joinTokens_mem (y :: t) c h with ⟨tk, htk, hc⟩ | h
          · exact Or.inl ⟨tk, List.mem_cons_of_mem x htk, hc⟩
          · exact Or.inr h

/-- The characters following one rendered value inside the list: the
closing bracket, or a separator and the remaining rendered values. -/
def valsTailText : List JsValue → List Char → List Char
  | [], rest => ']' :: rest
  | v :: vs, rest => ',' :: ' ' :: (renderedToken v ++ valsTailText vs rest)

theorem joinTokens_valsTail : ∀ (v : JsValue) (vs : List JsValue) (rest : List Char),
    joinTokens ((v :: vs).map renderedToken) ++ ']' :: rest =
      renderedToken v ++ valsTailText vs rest
  | v, [], rest => by simp [joinTokens, valsTailText]
  | v, w :: vs, rest => by
    rw [show joinTokens ((v :: w :: vs).map renderedToken) =
        renderedToken v ++ ',' :: ' ' :: joinTokens ((w :: vs).map renderedToken) from rfl]
    rw [show valsTailText (w :: vs) rest =
        ',' :: ' ' :: (renderedToken w ++ valsTailText vs rest) from rfl]
    rw [← joinTokens_valsTail w vs rest]
    simp [List.append_assoc]

theorem valsTailText_shape (vs : List JsValue) (rest : List Char) :
    ∃ x S2, valsTailText vs rest = x :: S2 ∧ x.isDigit = false := by
  cases vs with
  | nil => exact ⟨']', rest, rfl, by decide⟩
  | cons v vs2 => exact ⟨',', _, rfl, by decide⟩

theorem joinTokens_length_ge : ∀ vals : List JsValue,
    (∀ v ∈ vals, safeValue v = true) →
    vals.length ≤ (joinTokens (vals.map renderedToken)).length
  | [], _ => by simp [joinTokens]
  | [v], h => by
    rw [List.map_cons, List.map_nil,
      show joinTokens [renderedToken v] = renderedToken v from rfl]
    have hpos : 0 < (renderedToken v).length :=
      List.length_pos.mpr (renderedToken_ne_nil v (h v (List.mem_cons_self v [])))
    simpa using hpos
  | v :: w :: vs, h => by
    have ih := joinTokens_length_ge (w :: vs) (fun u hu => h u (List.mem_cons_of_mem v hu))
    rw [show joinTokens ((v :: w :: vs).map renderedToken) =
        renderedToken v ++ ',' :: ' ' :: joinTokens ((w :: vs).map renderedToken) from rfl]
    have hpos : 0 < (renderedToken v).length :=
      List.length_pos.mpr (renderedToken_ne_nil v (h v (List.mem_cons_self v _)))
    simp only [List.length_append, List.length_cons, List.length_map] at ih ⊢
    omega

theorem parseValuesTail_ok : ∀ (vs : List JsValue) (fuel : Nat) (rest : List Char),
    (∀ v ∈ vs, safeValue v = true) → vs.length < fuel →
    parseValuesTail fuel (valsTailText vs rest) = some (vs, rest)
  | [], fuel, rest, _, hlen => by
    obtain ⟨fuel2, rfl⟩ : ∃ f2, fuel = f2 + 1 := ⟨fuel - 1, by omega⟩
    rfl
  | v :: vs, fuel, rest, hsafe, hlen => by
    obtain ⟨fuel2, rfl⟩ : ∃ f2, fuel = f2 + 1 := ⟨fuel - 1, by omega⟩
    have hv := hsafe v (List.mem_cons_self v vs)
    have ih := parseValuesTail_ok vs fuel2 rest
      (fun u hu => hsafe u (List.mem_cons_of_mem v hu)) (by
        simp only [List.length_cons] at hlen
        omega)
    obtain ⟨x, S2, hxS, hx⟩ := valsTailText_shape vs rest
    show (match parseOneValue (renderedToken v ++ valsTailText vs rest) with
      | none => none
      | some (w, r3) =>
        match parseValuesTail fuel2 r3 with
        | none => none
        | some (ws, r4) => some (w :: ws, r4)) = some (v :: vs, rest)
    rw [hxS, parseOneValue_render v hv x S2 hx]
    show (match parseValuesTail fuel2 (x :: S2) with
      | none => none
      | some (ws, r4) => some (v :: ws, r4)) = some (v :: vs, rest)
    rw [← hxS, ih]

theorem parseValuesAndClose_ok (vals : List JsValue) (fuel : Nat) (rest : List Char)
    (hsafe : ∀ v ∈ vals, safeValue v = true) (hlen : vals.length ≤ fuel) :
    parseValuesAndClose fuel (joinTokens (vals.map renderedToken) ++ ']' :: rest) =
      some (vals, rest) := by
  cases vals with
  | nil =>
    show parseValuesAndClose fuel (']' :: rest) = some ([], rest)
    rfl
  | cons v vs =>
    have hv := hsafe v (List.mem_cons_self v vs)
    rw [joinTokens_valsTail]
    obtain ⟨d, tl, hd, hdne⟩ := renderedToken_head_shape v hv
    obtain ⟨x, S2, hxS, hx⟩ := valsTailText_shape vs rest
    rw [show renderedToken v ++ valsTailText vs rest =
        d :: (tl ++ valsTailText vs rest) by rw [hd]; rfl]
    show (if d = ']' then some ([], tl ++ valsTailText vs rest)
      else
        match parseOneValue (d :: (tl ++ valsTailText vs rest)) with
        | none => none
        | some (w, r2) =>
          match parseValuesTail fuel r2 with
          | none => none
          | some (ws, r3) => some (w :: ws, r3)) = some (v :: vs, rest)
    rw [if_neg hdne]
    rw [show d :: (tl ++ valsTailText vs rest) = renderedToken v ++ valsTailText vs rest by
      rw [hd]; rfl]
    rw [hxS, parseOneValue_render v hv x S2 hx]
    show (match parseValuesTail fuel (x :: S2) with
      | none => none
      | some (ws, r3) => some (v :: ws, r3)) = some (v :: vs, rest)
    rw [← hxS,
      parseValuesTail_ok vs fuel rest (fun u hu => hsafe u (List.mem_cons_of_mem v hu))
        (by simp only [List.length_cons] at hlen; omega)]

/-! ### Parsing one entry line -/

theorem parseEntryLine_structured (ek k ty tail : List Char) (vals : List JsValue)
    (hek : ':' ∉ ek) (hk : '"' ∉ k) (hty : '"' ∉ ty)
    (hvals : ∀ v ∈ vals, safeValue v = true) (htail : tail = [] ∨ tail = [',']) :
    parseEntryLine ("  ".data ++ (ek ++ ':' :: (" \x7b key: \"".data ++ (k ++ '"' ::
      (" as const, type: \"".data ++ (ty ++ '"' :: (" as const, variations: [".data ++
        (joinTokens (vals.map renderedToken) ++ ']' ::
          (" as const \x7d".data ++ tail))))))))) =
      some (String.mk k, String.mk ty, vals) := by
  unfold parseEntryLine
  simp only [Option.bind_eq_bind]
  rw [skipLit_append]
  simp only [Option.some_bind]
  rw [splitAtChar_append ':' ek hek]
  simp only [Option.some_bind]
  rw [skipLit_append]
  simp only [Option.some_bind]
  rw [splitAtChar_append '"' k hk]
  simp only [Option.some_bind]
  rw [skipLit_append]
  simp only [Option.some_bind]
  rw [splitAtChar_append '"' ty hty]
  simp only [Option.some_bind]
  rw [skipLit_append]
  simp only [Option.some_bind]
  rw [parseValuesAndClose_ok vals _ _ hvals (by
    rw [List.length_append]
    have := joinTokens_length_ge vals hvals
    omega)]
  simp only [Option.some_bind]
  rw [skipLit_append]
  simp only [Option.some_bind]
  rcases htail with rfl | rfl <;> simp

/-- The rendered variations array as characters: an opening bracket, the
joined tokens, a closing bracket. -/
theorem variationsArrayText_data (f : ProcessedFlag) (htyJ : ¬(f.type = "JSON"))
    (hvals : ∀ v ∈ f.variations, safeValue v.value = true) :
    (variationsArrayText f).data =
      '[' :: ((joinTokens ((f.variations.map TypedVariation.value).map renderedToken))
        ++ [']']) := by
  unfold variationsArrayText
  by_cases hlen : f.variations.length > 0
  · rw [if_pos hlen, String.data_append, String.data_append, joinSep_data_commaSpace]
    have hmapeq : (f.variations.map fun v => renderVariationValue f.type v.value).map
          String.data = (f.variations.map TypedVariation.value).map renderedToken := by
      rw [List.map_map, List.map_map]
      apply List.map_congr_left
      intro v hv
      exact renderValue_data f.type (by simp [htyJ]) v.value (hvals v hv)
    rw [hmapeq]
    simp
  · rw [if_neg hlen]
    have hnil : f.variations = [] := List.length_eq_zero.mp (by omega)
    rw [hnil]
    rfl

theorem parseEntryLine_entry (f : ProcessedFlag) (hf : safeFlag f = true)
    (tail : List Char) (htail : tail = [] ∨ tail = [',']) :
    parseEntryLine ((enumEntryText f).data ++ tail) =
      some (f.key, f.type, f.variations.map TypedVariation.value) := by
  have hf5 := by simpa [safeFlag, Bool.and_eq_true, List.all_eq_true] using hf
  obtain ⟨⟨⟨⟨hek, hkey⟩, hty⟩, htyJ⟩, hvals⟩ := hf5
  have hekc : ':' ∉ f.enumKey.data := fun hmem => (hek ':' hmem).1 rfl
  have hkeyc : '"' ∉ f.key.data := fun hmem => (hkey '"' hmem).1 rfl
  have htyc : '"' ∉ f.type.data := fun hmem => (hty '"' hmem).1 rfl
  have hvsafe : ∀ v ∈ f.variations, safeValue v.value = true := hvals
  have harr := variationsArrayText_data f htyJ hvsafe
  set J := joinTokens ((f.variations.map TypedVariation.value).map renderedToken) with hJdef
  have hvalsafe : ∀ v ∈ f.variations.map TypedVariation.value, safeValue v = true := by
    intro v hv
    obtain ⟨w, hw, rfl⟩ := List.mem_map.mp hv
    exact hvsafe w hw
  have hdata : (enumEntryText f).data ++ tail =
      "  ".data ++ (f.enumKey.data ++ ':' :: (" \x7b key: \"".data ++ (f.key.data ++ '"' ::
        (" as const, type: \"".data ++ (f.type.data ++ '"' ::
          (" as const, variations: [".data ++
            (J ++ ']' :: (" as const \x7d".data ++ tail)))))))) := by
    simp only [enumEntryText, String.data_append, List.append_assoc]
    rw [harr]
    simp [List.append_assoc, List.cons_append, List.singleton_append]
  rw [hdata]
  exact parseEntryLine_structured f.enumKey.data f.key.data f.type.data tail
    (f.variations.map TypedVariation.value) hekc hkeyc htyc hvalsafe htail

/-! ### Assembling and splitting the emitted lines -/

/-- The entry lines as they appear in the text: each but the last carries
the separating comma. -/
def commaTerm : List (List Char) → List (List Char)
  | [] => []
  | [l] => [l]
  | l :: ls => (l ++ [',']) :: commaTerm ls

theorem mapM_commaTerm_entries : ∀ flags : List ProcessedFlag,
    (∀ f ∈ flags, safeFlag f = true) →
    (commaTerm (flags.map fun f => (enumEntryText f).data)).mapM parseEntryLine =
      some (flags.map fun f => (f.key, f.type, f.variations.map TypedVariation.value))
  | [], _ => rfl
  | [f], h => by
    simp only [List.map_cons, List.map_nil,
      show commaTerm [(enumEntryText f).data] = [(enumEntryText f).data] from rfl,
      List.mapM_cons, List.mapM_nil]
    rw [show (enumEntryText f).data = (enumEntryText f).data ++ [] by simp,
      parseEntryLine_entry f (h f (by simp)) [] (Or.inl rfl)]
    rfl
  | f :: g :: fs, h => by
    have ih := mapM_commaTerm_entries (g :: fs)
      (fun x hx => h x (List.mem_cons_of_mem f hx))
    simp only [List.map_cons] at ih ⊢
    rw [show commaTerm ((enumEntryText f).data :: (enumEntryText g).data ::
        fs.map (fun f2 => (enumEntryText f2).data)) =
      ((enumEntryText f).data ++ [',']) :: commaTerm ((enumEntryText g).data ::
        fs.map (fun f2 => (enumEntryText f2).data)) from rfl]
    simp only [List.mapM_cons]
    rw [parseEntryLine_entry f (h f (by simp)) [','] (Or.inr rfl), ih]
    rfl

theorem splitNl_joinEntries : ∀ (L : List String) (rest : List Char),
    (∀ l ∈ L, '\n' ∉ l.data) → L ≠ [] →
    splitOnChar '\n' ((joinSep ",\n" L).data ++ '\n' :: rest) =
      commaTerm (L.map String.data) ++ splitOnChar '\n' rest
  | [], _, _, hne => absurd rfl hne
  | [x], rest, hnl, _ => by
    rw [show joinSep ",\n" [x] = x from rfl,
      splitOnChar_append '\n' x.data (hnl x (by simp)) rest]
    rfl
  | x :: y :: t, rest, hnl, _ => by
    have ih := splitNl_joinEntries (y :: t) rest
      (fun l hl => hnl l (List.mem_cons_of_mem x hl)) (by simp)
    rw [show joinSep ",\n" (x :: y :: t) = x ++ ",\n" ++ joinSep ",\n" (y :: t) from rfl,
      String.data_append, String.data_append,
      show (",\n").data = [',', '\n'] from rfl]
    rw [show x.data ++ [',', '\n'] ++ (joinSep ",\n" (y :: t)).data ++ '\n' :: rest =
        (x.data ++ [',']) ++ '\n' :: ((joinSep ",\n" (y :: t)).data ++ '\n' :: rest) by
      simp [List.append_assoc]]
    rw [splitOnChar_append '\n' (x.data ++ [','])
      (by
        intro hm
        rw [List.mem_append] at hm
        rcases hm with hm | hm
        · exact hnl x (by simp) hm
        · rw [List.mem_singleton] at hm
          exact absurd hm (by decide))]
    rw [ih]
    rfl

theorem dropThroughMarker_cons_ne (l : List Char) (ls : List (List Char))
    (h : l ≠ "export const EppoFlags = \x7b".data) :
    dropThroughMarker (l :: ls) = dropThroughMarker ls := by
  simp [dropThroughMarker, h]

theorem dropThroughMarker_marker (ls : List (List Char)) :
    dropThroughMarker ("export const EppoFlags = \x7b".data :: ls) = some ls := by
  simp [dropThroughMarker]

theorem takeBeforeEnd_entries : ∀ (es : List (List Char)) (rest : List (List Char)),
    (∀ e ∈ es, e ≠ "\x7d as const;".data) →
    takeBeforeEnd (es ++ "\x7d as const;".data :: rest) = some es
  | [], rest, _ => by simp [takeBeforeEnd]
  | e :: es, rest, h => by
    rw [List.cons_append]
    rw [show takeBeforeEnd (e :: (es ++ "\x7d as const;".data :: rest)) =
        (takeBeforeEnd (es ++ "\x7d as const;".data :: rest)).map (e :: ·) by
      simp [takeBeforeEnd, h e (by simp)]]
    rw [takeBeforeEnd_entries es rest (fun x hx => h x (List.mem_cons_of_mem _ hx))]
    rfl

theorem commaTerm_mem : ∀ (es : List (List Char)) (e2 : List Char), e2 ∈ commaTerm es →
    ∃ e ∈ es, e2 = e ∨ e2 = e ++ [',']
  | [], _, h => by cases h
  | [l], e2, h => by
    rw [show commaTerm [l] = [l] from rfl, List.mem_singleton] at h
    exact ⟨l, by simp, Or.inl h⟩
  | l :: l2 :: ls, e2, h => by
    rw [show commaTerm (l :: l2 :: ls) = (l ++ [',']) :: commaTerm (l2 :: ls) from rfl,
      List.mem_cons] at h
    rcases h with rfl | h
    · exact ⟨l, by simp, Or.inr rfl⟩
    · obtain ⟨e, he, heq⟩ := commaTerm_mem (l2 :: ls) e2 h
      exact ⟨e, List.mem_cons_of_mem l he, heq⟩

theorem enumEntryText_head (f : ProcessedFlag) :
    ((enumEntryText f).data).head? = some ' ' := rfl

/-- Entry lines contain no newline when the flag is safe. -/
theorem enumEntryText_no_nl (f : ProcessedFlag) (hf : safeFlag f = true) :
    '\n' ∉ (enumEntryText f).data := by
  have hf5 := by simpa [safeFlag, Bool.and_eq_true, List.all_eq_true] using hf
  obtain ⟨⟨⟨⟨hek, hkey⟩, hty⟩, htyJ⟩, hvals⟩ := hf5
  have harr := variationsArrayText_data f htyJ hvals
  intro hmem
  simp [enumEntryText, String.data_append, List.append_assoc, harr,
    List.mem_append, List.mem_cons, List.mem_singleton] at hmem
  rcases hmem with h | h | h | h
  · exact (hek '\n' h).2 rfl
  · exact (hkey '\n' h).2 rfl
  · exact (hty '\n' h).2 rfl
  · rcases joinTokens_mem _ _ h with ⟨tk, htk, hc⟩ | h2
    · obtain ⟨w, hw, rfl⟩ := List.mem_map.mp htk
      exact (renderedToken_no_nl _ (hvals w hw)) '\n' hc rfl
    · rcases h2 with h2 | h2 <;> exact absurd h2 (by decide)

theorem splitOnChar_cons_self (t : Char) (cs : List Char) :
    splitOnChar t (t :: cs) = [] :: splitOnChar t cs := by
  simp [splitOnChar]

/-- C3 amended: for every non-empty processed flag list whose flags are
recoverable (`safeFlag`: no quotes or newlines in the unescaped-
interpolated keys and types, no colon or newline in the enum key, type
not JSON, variation values null, booleans, integer-valued numbers or
arbitrary strings — the emitter escapes them and the parser decodes the
escapes) and whose source label and timestamp contain no newline,
parsing the emitted module text recovers, in order, each flag's source
key, declared type, and list of variation VALUES — the variation keys
are not emitted and hence not recoverable, and a newline inside a key
also breaks the syntax (`emitted_text_not_invertible`); the generation
timestamp is excluded. -/
theorem emitted_table_round_trip (flags : List ProcessedFlag) (src ts : String)
    (hne : flags ≠ []) (hsafe : ∀ f ∈ flags, safeFlag f = true)
    (hts : '\n' ∉ ts.data) (hsrc : '\n' ∉ src.data) :
    parseEmitted (moduleText flags src ts) =
      some (flags.map fun f => (f.key, f.type, f.variations.map TypedVariation.value)) := by
  have hshape : (moduleText flags src ts).data =
      ("/**".data ++ ('\n' :: (" * Generated Eppo flag enums".data ++ ('\n' :: ((" * Generated on: ".data ++ ts.data) ++ ('\n' :: ((" * Source: ".data ++ src.data) ++ ('\n' :: (" */".data ++ ('\n' :: ('\n' :: ("export const EppoFlags = \x7b".data ++ ('\n' :: ((joinSep ",\n" (flags.map enumEntryText)).data ++ ('\n' :: ("\x7d as const;".data ++ ('\n' :: ('\n' :: ("// Type for all flag keys".data ++ ('\n' :: ("export type EppoFlagKey = keyof typeof EppoFlags;".data ++ ('\n' :: ('\n' :: ("// Type for all flag values  ".data ++ ('\n' :: ("export type EppoFlagValue = typeof EppoFlags[EppoFlagKey];".data ++ ['\n'])))))))))))))))))))))))))) := by
    simp [moduleText, String.data_append, List.append_assoc]
  have h3nl : '\n' ∉ " * Generated on: ".data ++ ts.data := by
    intro hm
    rw [List.mem_append] at hm
    rcases hm with hm | hm
    · exact absurd hm (by decide)
    · exact hts hm
  have h4nl : '\n' ∉ " * Source: ".data ++ src.data := by
    intro hm
    rw [List.mem_append] at hm
    rcases hm with hm | hm
    · exact absurd hm (by decide)
    · exact hsrc hm
  have hnlAll : ∀ l ∈ flags.map enumEntryText, '\n' ∉ l.data := by
    intro l hl
    obtain ⟨f, hf, rfl⟩ := List.mem_map.mp hl
    exact enumEntryText_no_nl f (hsafe f hf)
  have hLne : flags.map enumEntryText ≠ [] :=
    fun hm => hne (List.map_eq_nil_iff.mp hm)
  unfold parseEmitted
  simp only [Option.bind_eq_bind]
  rw [hshape]
  rw [splitOnChar_append '\n' ("/**".data) (by decide),
    splitOnChar_append '\n' (" * Generated Eppo flag enums".data) (by decide),
    splitOnChar_append '\n' (" * Generated on: ".data ++ ts.data) h3nl,
    splitOnChar_append '\n' (" * Source: ".data ++ src.data) h4nl,
    splitOnChar_append '\n' (" */".data) (by decide),
    splitOnChar_cons_self,
    splitOnChar_append '\n' ("export const EppoFlags = \x7b".data) (by decide),
    splitNl_joinEntries (flags.map enumEntryText) _ hnlAll hLne,
    splitOnChar_append '\n' ("\x7d as const;".data) (by decide),
    splitOnChar_cons_self,
    splitOnChar_append '\n' ("// Type for all flag keys".data) (by decide),
    splitOnChar_append '\n' ("export type EppoFlagKey = keyof typeof EppoFlags;".data)
      (by decide),
    splitOnChar_cons_self,
    splitOnChar_append '\n' ("// Type for all flag values  ".data) (by decide)]
  rw [show ("export type EppoFlagValue = typeof EppoFlags[EppoFlagKey];".data ++ ['\n'])
      = "export type EppoFlagValue = typeof EppoFlags[EppoFlagKey];".data ++ '\n' :: []
    from rfl,
    splitOnChar_append '\n'
      ("export type EppoFlagValue = typeof EppoFlags[EppoFlagKey];".data) (by decide)]
  rw [List.map_map]
  rw [dropThroughMarker_cons_ne _ _ (by decide),
    dropThroughMarker_cons_ne _ _ (by decide),
    dropThroughMarker_cons_ne _ _ (by
      intro h
      have h2 := congrArg List.head? h
      simp at h2),
    dropThroughMarker_cons_ne _ _ (by
      intro h
      have h2 := congrArg List.head? h
      simp at h2),
    dropThroughMarker_cons_ne _ _ (by decide),
    dropThroughMarker_cons_ne _ _ (by decide),
    dropThroughMarker_marker]
  simp only [Option.some_bind]
  rw [takeBeforeEnd_entries _ _ (by
    intro e he hEq
    obtain ⟨e0, he0, hcase⟩ := commaTerm_mem _ _ he
    obtain ⟨f, hfm, rfl⟩ := List.mem_map.mp he0
    rcases hcase with rfl | rfl
    · have h2 := congrArg List.head? hEq
      rw [show ((String.data ∘ enumEntryText) f).head? = some ' ' from rfl] at h2
      simp at h2
    · have h2 := congrArg List.head? hEq
      rw [show (((String.data ∘ enumEntryText) f) ++ [',']).head? = some ' ' from rfl] at h2
      simp at h2)]
  simp only [Option.some_bind]
  exact mapM_commaTerm_entries flags hsafe

/-- Witness for the amended C3 at three processed flags: the boolean
DARK_MODE flag, a NUMBER flag with the repo example's integer variations
10 and 25, and a STRING flag whose value needs the full escape decoding
(quote, backslash-free specials, comma and brackets inside the string). -/
theorem emitted_table_round_trip_witness :
    parseEmitted (moduleText
      [{ key := "dark-mode", enumKey := "DARK_MODE", type := "BOOLEAN",
         variations := [⟨some "on", .bool false⟩, ⟨some "off", .bool false⟩] },
       { key := "max-retries", enumKey := "MAX_RETRIES", type := "NUMBER",
         variations := [⟨some "low", .num (mkRat 10 1)⟩, ⟨some "high", .num (mkRat 25 1)⟩] },
       { key := "greeting", enumKey := "GREETING", type := "STRING",
         variations := [⟨some "a", .str "say \"hi\",\nok[1]"⟩] }]
      "sample-eppo-config.json" "2024-01-01T00:00:00.000Z") =
      some [("dark-mode", "BOOLEAN", [.bool false, .bool false]),
            ("max-retries", "NUMBER", [.num (mkRat 10 1), .num (mkRat 25 1)]),
            ("greeting", "STRING", [.str "say \"hi\",\nok[1]"])] :=
  emitted_table_round_trip
    [{ key := "dark-mode", enumKey := "DARK_MODE", type := "BOOLEAN",
       variations := [⟨some "on", .bool false⟩, ⟨some "off", .bool false⟩] },
     { key := "max-retries", enumKey := "MAX_RETRIES", type := "NUMBER",
       variations := [⟨some "low", .num (mkRat 10 1)⟩, ⟨some "high", .num (mkRat 25 1)⟩] },
     { key := "greeting", enumKey := "GREETING", type := "STRING",
       variations := [⟨some "a", .str "say \"hi\",\nok[1]"⟩] }]
    "sample-eppo-config.json" "2024-01-01T00:00:00.000Z"
    (by simp) (by decide) (by decide) (by decide)

end EppoGen
